import Mathlib

/-!
Verification of the vino-students chunking engine.

Shallow embedding of the chunking pipeline of the `vino-students`
repository (`chunking.py`, `document_processor.py`, `models.py`) over
`List Char`, together with proofs and refutations of the specification
claims.  Python strings are modelled as `List Char`; the relevant string
methods (`str.strip`, `str.split`, `str.replace`) and the specific regular
expressions appearing in the source are modelled by explicit recursive
functions that follow the semantics of the Python originals.
-/

namespace Vino

/-! ### Definitions -/

/-- Python whitespace characters, as stripped by `str.strip()` with no
arguments (space, tab, newline, carriage return, vertical tab, form feed). -/
def isPySpace (c : Char) : Bool :=
  c = ' ' || c = '\t' || c = '\n' || c = '\r' || c = Char.ofNat 11 || c = Char.ofNat 12

/-- Drop the longest suffix of characters satisfying `p`. -/
def dropEndWhile (p : Char → Bool) (l : List Char) : List Char :=
  (l.reverse.dropWhile p).reverse

/-- Python `str.strip()`: remove leading and trailing whitespace. -/
def pyStrip (l : List Char) : List Char :=
  dropEndWhile isPySpace (l.dropWhile isPySpace)

/-- Python `str.strip(chars)`: remove leading and trailing characters from
the given set. -/
def pyStripChars (set : List Char) (l : List Char) : List Char :=
  dropEndWhile (fun c => set.contains c) (l.dropWhile (fun c => set.contains c))

/-- Locate the first occurrence of `sep` in `l`, returning the part before
and the part after it (the model of leftmost substring search). -/
def findSub (sep : List Char) : List Char → Option (List Char × List Char)
  | [] => if sep.isEmpty then some ([], []) else none
  | c :: rest =>
    if sep.isPrefixOf (c :: rest) then some ([], (c :: rest).drop sep.length)
    else
      match findSub sep rest with
      | some (a, b) => some (c :: a, b)
      | none => none

/-- `sep` occurs as a contiguous substring of `l`. -/
def containsSub (sep l : List Char) : Bool :=
  (findSub sep l).isSome

/-- Python `text.split("\n\n")` specialized to the double-newline
separator: split at every leftmost, non-overlapping occurrence, keeping
empty pieces (the accumulator holds the current piece reversed). -/
def splitParasGo (acc : List Char) : List Char → List (List Char)
  | [] => [acc.reverse]
  | [c] => [(c :: acc).reverse]
  | c :: c2 :: rest =>
    if c = '\n' && c2 = '\n' then acc.reverse :: splitParasGo [] rest
    else splitParasGo (c :: acc) (c2 :: rest)

/-- Python `str.replace(pat, "")` for a fixed non-empty pattern: scan left
to right; on a match drop the pattern (via a skip counter, which makes the
recursion structural) and continue after it. -/
def removeSubGo (pat : List Char) : Nat → List Char → List Char
  | skip + 1, _ :: rest => removeSubGo pat skip rest
  | 0, c :: rest =>
    if pat.isPrefixOf (c :: rest) then removeSubGo pat (pat.length - 1) rest
    else c :: removeSubGo pat 0 rest
  | _, [] => []

/-- `text.replace("[image]", "")`. -/
def removeImage (l : List Char) : List Char :=
  removeSubGo ("[image]".toList) 0 l

/-- `text.replace("[]", "")`. -/
def removeBrackets (l : List Char) : List Char :=
  removeSubGo ("[]".toList) 0 l

/-- `text.replace('\r\n', '\n')`. -/
def crlf2lf : List Char → List Char
  | [] => []
  | [c] => [c]
  | c :: c2 :: rest =>
    if c = '\r' && c2 = '\n' then '\n' :: crlf2lf rest
    else c :: crlf2lf (c2 :: rest)

/-- `text.replace('\r', '\n')` (a single-character replacement is a map). -/
def cr2lf (l : List Char) : List Char :=
  l.map fun c => if c = '\r' then '\n' else c

/-- `re.split(r'\r?\n', s)`: split on every newline, where a carriage
return immediately preceding the newline is consumed with it. -/
def splitLinesRe : List Char → List (List Char)
  | [] => [[]]
  | [c] => if c = '\n' then [[], []] else [[c]]
  | c :: c2 :: rest =>
    if c = '\n' then [] :: splitLinesRe (c2 :: rest)
    else if c = '\r' && c2 = '\n' then [] :: splitLinesRe rest
    else
      match splitLinesRe (c2 :: rest) with
      | [] => [[c]]
      | line :: more => (c :: line) :: more

/-- `" ".join(parts)`. -/
def joinSp : List (List Char) → List Char
  | [] => []
  | [x] => x
  | x :: y :: rest => x ++ ' ' :: joinSp (y :: rest)

/-- Exactly the character class `[A-Z]` of the classifier regex. -/
def isUpperAZ (c : Char) : Bool :=
  'A' ≤ c && c ≤ 'Z'

/-- Match `\r?\n` at the head of the list (greedy optional carriage
return), returning the remainder. -/
def stripRN : List Char → Option (List Char)
  | [] => none
  | c :: rest =>
    if c = '\n' then some rest
    else if c = '\r' then
      match rest with
      | [] => none
      | c2 :: r2 => if c2 = '\n' then some r2 else none
    else none

/-- Match `\r?\n\r?\n[A-Z]` at the head of the list. -/
def finishAt (l : List Char) : Bool :=
  match stripRN l with
  | none => false
  | some r1 =>
    match stripRN r1 with
    | none => false
    | some r2 =>
      match r2 with
      | c :: _ => isUpperAZ c
      | [] => false

/-- After the literal `"- "`, match `.*\r?\n\r?\n[A-Z]` (where `.` does not
match a newline): skip non-newline characters until `finishAt` succeeds. -/
def scanLine : List Char → Bool
  | [] => false
  | c :: rest => finishAt (c :: rest) || (c ≠ '\n' && scanLine rest)

/-- The continuation after a candidate dash: a space and then the rest of
the regex (`scanLine`). -/
def dashSpaceScan : List Char → Bool
  | [] => false
  | c :: r => c = ' ' && scanLine r

/-- `re.search(r'- .*\r?\n\r?\n[A-Z]', doc)` as a Boolean: some position of
the document starts the literal `"- "` followed by a successful `scanLine`. -/
def hasDashPattern : List Char → Bool
  | [] => false
  | c :: rest => (c = '-' && dashSpaceScan rest) || hasDashPattern rest

/-- `chunking.identify_doc_type`: categorizes a plaintext doc based on the
format of the toc, via the regex search above. -/
def identify_doc_type (doc : String) : String :=
  if hasDashPattern doc.toList then "TOC_WITHOUT_TITLE" else "NO_TOC_TITLE"

/-- Match `\r?\n\r?\n` at the head of the list, returning the remainder. -/
def stripRNRN (l : List Char) : Option (List Char) :=
  match stripRN l with
  | none => none
  | some r1 => stripRN r1

/-- `re.split(r'\r?\n\r?\n', doc, 1)`: split at the first match of a double
newline, if any. -/
def splitFirstBlank : List Char → Option (List Char × List Char)
  | [] => none
  | c :: rest =>
    match stripRNRN (c :: rest) with
    | some r => some ([], r)
    | none =>
      match splitFirstBlank rest with
      | some (a, b) => some (c :: a, b)
      | none => none

/-- One match of `.*\n\n\n-` starting exactly here: since `.` does not
match a newline, the match succeeds exactly when the maximal run of
non-newline characters from this position is followed by the literal
`"\n\n\n-"`; returns the remainder after the match. -/
def matchTitleRun : List Char → Option (List Char)
  | [] => none
  | c :: rest =>
    if c = '\n' then
      if ['\n', '\n', '-'].isPrefixOf rest then some (rest.drop 3) else none
    else matchTitleRun rest

/-- `re.sub('.*\n\n\n-', '-', doc)`: replace every (leftmost) match by a
single dash; the scan is driven by a character-count fuel (a match always
consumes at least one character, so `l.length` fuel suffices). -/
def titleSubGo : Nat → List Char → List Char
  | 0, l => l
  | fuel + 1, l =>
    match l with
    | [] => []
    | c :: rest =>
      match matchTitleRun (c :: rest) with
      | some r => '-' :: titleSubGo fuel r
      | none => c :: titleSubGo fuel rest

/-- `re.sub('.*\n\n\n-', '-', doc)` applied with sufficient fuel. -/
def titleSub (l : List Char) : List Char :=
  titleSubGo l.length l

/-- Python `str.split(sep, 1)` (at most one split) for `'\n\n'`. -/
def pySplitOnce (sep : List Char) (l : List Char) : List (List Char) :=
  match findSub sep l with
  | none => [l]
  | some (a, b) => [a, b]

/-- The body of `chunking.read_doc` acting on the already-converted plain
text (the call to `pypandoc.convert_file` is the external converter
collaborator; its output is this function's argument): classify the
document and split it into `(toc, text)`. -/
def read_doc_core (doc : String) : String × String :=
  let docType := identify_doc_type doc
  if docType = "TOC_WITH_TITLE" then
    let doc2 := titleSub doc.toList
    match pySplitOnce ("\n\n".toList) doc2 with
    | toc :: text :: _ => (String.mk toc, String.mk text)
    | _ => ("", String.mk doc2)
  else if docType = "TOC_WITHOUT_TITLE" then
    match splitFirstBlank doc.toList with
    | some (a, b) => (String.mk a, String.mk b)
    | none => ("", doc)
  else
    ("", doc)

/-- `read_doc_core` with the `TOC_WITH_TITLE` branch removed. -/
def read_doc_no_title_branch (doc : String) : String × String :=
  if identify_doc_type doc = "TOC_WITHOUT_TITLE" then
    match splitFirstBlank doc.toList with
    | some (a, b) => (String.mk a, String.mk b)
    | none => ("", doc)
  else
    ("", doc)

/-- Lookahead of the regex `(?!(\n|- ))` at a newline: the next characters
are another newline or a bullet marker. -/
def lookKeepNL : List Char → Bool
  | [] => false
  | [c] => c = '\n'
  | c :: c2 :: _ => c = '\n' || (c = '-' && c2 = ' ')

/-- `re.sub('(?<!\n)\n(?!(\n|- ))', ' ', text)`: each match is a single
newline with lookarounds into the original text, so the substitution is a
per-position map; `prevNL` records whether the preceding original
character was a newline (`false` at the start of the string, where the
negative lookbehind also succeeds). -/
def nl2spGo (prevNL : Bool) : List Char → List Char
  | [] => []
  | c :: rest =>
    if c = '\n' then
      (if prevNL || lookKeepNL rest then '\n' else ' ') :: nl2spGo true rest
    else c :: nl2spGo false rest

/-- Step 3 of the normalizer: un-wrap line-wrapped prose. -/
def nl2sp (l : List Char) : List Char :=
  nl2spGo false l

/-- `re.sub('\n{2,}', '\n\n', text)`: in every maximal newline run keep
only the first two newlines; `k` counts the newlines of the current run
already seen. -/
def collapseNLGo (k : Nat) : List Char → List Char
  | [] => []
  | c :: rest =>
    if c = '\n' then (if k < 2 then ['\n'] else []) ++ collapseNLGo (k + 1) rest
    else c :: collapseNLGo 0 rest

/-- Step 4 of the normalizer: canonical paragraph separator. -/
def collapseNL (l : List Char) : List Char :=
  collapseNLGo 0 l

/-- `re.sub('(?<!\n) +', ' ', text)`: a maximal space run collapses to one
space, except that a run immediately after a newline keeps its first space
untouched (the lookbehind blocks a match there) and collapses the rest;
`afterNL` records whether the current run is preceded by a newline, `k`
is the index within the current space run. -/
def collapseSpGo (afterNL : Bool) (k : Nat) : List Char → List Char
  | [] => []
  | c :: rest =>
    if c = ' ' then
      (if k = 0 || (afterNL && k = 1) then [' '] else []) ++ collapseSpGo afterNL (k + 1) rest
    else c :: collapseSpGo (c = '\n') 0 rest

/-- Step 5 of the normalizer: collapse runs of spaces. -/
def collapseSp (l : List Char) : List Char :=
  collapseSpGo false 0 l

/-- `chunking.cleanup_plaintext` on the character list: remove image
artifacts, normalize line endings, un-wrap single newlines, collapse
newline runs to paragraph breaks, collapse space runs. -/
def cleanupL (l : List Char) : List Char :=
  collapseSp (collapseNL (nl2sp (cr2lf (crlf2lf (removeBrackets (removeImage l))))))

/-- `chunking.cleanup_plaintext`: gets the full text of a document and
returns cleaned-up text. -/
def cleanup_plaintext (s : String) : String :=
  String.mk (cleanupL s.toList)

/-- The character set of `line.strip('- \n\r')`. -/
def tocStripSet : List Char := ['-', ' ', '\n', '\r']

/-- One line of the TOC: `line.strip('- \n\r').strip()`. -/
def cleanTocLine (line : List Char) : List Char :=
  pyStrip (pyStripChars tocStripSet line)

/-- The heading-list extraction at the top of `chunking.split_text`:
empty (after whitespace-strip) TOC gives no headings; otherwise split the
TOC on `\r?\n`, clean each line, and keep the non-empty results. -/
def parseHeadings (toc : List Char) : List (List Char) :=
  if pyStrip toc = [] then []
  else
    (splitLinesRe toc).filterMap fun line =>
      let c := cleanTocLine line
      if c = [] then none else some c

/-- `text.split("\n\n")`: the paragraph list of the body text. -/
def paragraphsOf (text : List Char) : List (List Char) :=
  splitParasGo [] text

/-- The literal `" [SEP] "` separator injected between heading and content. -/
def sepSEP : List Char := " [SEP] ".toList

/-- `f"{heading} [SEP] {content}".strip()` with the content paragraphs
joined by single spaces. -/
def mkChunkStr (hd : List Char) (content : List (List Char)) : List Char :=
  pyStrip (hd ++ sepSEP ++ joinSp content)

/-- The paragraph scan of `chunking.split_text`, producing the chunk
strings.  State: `hs` = remaining headings, `hd` = `current_heading`,
`content` = `current_content`, `chunks` = `text_chunks` accumulated so
far; the final cases model the post-loop flush. -/
def splitTextGo (hs : List (List Char)) (hd : List Char)
    (content : List (List Char)) (chunks : List (List Char)) :
    List (List Char) → List (List Char)
  | [] =>
    if hd ≠ [] ∧ content ≠ [] then chunks ++ [mkChunkStr hd content]
    else if content ≠ [] ∧ hd = [] then chunks ++ [pyStrip (joinSp content)]
    else chunks
  | p :: ps =>
    let q := pyStrip p
    if q = [] then splitTextGo hs hd content chunks ps
    else if hs ≠ [] ∧ q ∈ hs then
      splitTextGo (hs.erase q) q []
        (if hd ≠ [] ∧ content ≠ [] then chunks ++ [mkChunkStr hd content] else chunks) ps
    else splitTextGo hs hd (content ++ [q]) chunks ps

/-- `chunking.split_text`: gets the toc and cleaned text and returns
chunks of the form `"Heading [SEP] Text"`. -/
def split_text (toc text : String) : List String :=
  (splitTextGo (parseHeadings toc.toList) [] [] [] (paragraphsOf text.toList)).map String.mk

/-- Structured counterpart of the same scan: chunks as
`(heading, content-paragraph-list)` pairs, a headless final chunk carrying
heading `[]`.  Related to `splitTextGo` by `splitTextGo_eq_segmentGo`. -/
def segmentGo (hs : List (List Char)) (hd : List Char)
    (content : List (List Char)) :
    List (List Char) → List (List Char × List (List Char))
  | [] =>
    if hd ≠ [] ∧ content ≠ [] then [(hd, content)]
    else if content ≠ [] ∧ hd = [] then [([], content)]
    else []
  | p :: ps =>
    let q := pyStrip p
    if q = [] then segmentGo hs hd content ps
    else if hs ≠ [] ∧ q ∈ hs then
      (if hd ≠ [] ∧ content ≠ [] then [(hd, content)] else []) ++
        segmentGo (hs.erase q) q [] ps
    else segmentGo hs hd (content ++ [q]) ps

/-- The chunk segmentation of a document at the structured level. -/
def segment (toc text : String) : List (List Char × List (List Char)) :=
  segmentGo (parseHeadings toc.toList) [] [] (paragraphsOf text.toList)

/-- Serialization of a structured chunk, exactly as `split_text` builds
its chunk strings. -/
def serializeChunk : List Char × List (List Char) → List Char
  | (hd, content) =>
    if hd ≠ [] then mkChunkStr hd content else pyStrip (joinSp content)

/-- The stripped non-blank elements of a paragraph list. -/
def nbListOf (ps : List (List Char)) : List (List Char) :=
  (ps.map pyStrip).filter (· ≠ [])

/-- The non-blank trimmed paragraphs of the body text, in order. -/
def nbParas (text : String) : List (List Char) :=
  nbListOf (paragraphsOf text.toList)

/-- A string with no leading and no trailing whitespace. -/
def NoEdgeSpace (l : List Char) : Prop :=
  (∀ c, l.head? = some c → isPySpace c = false) ∧
  (∀ c, l.getLast? = some c → isPySpace c = false)

/-- A `\r?\n` token: one newline, optionally preceded by a carriage
return. -/
def RNtok (n : List Char) : Prop :=
  n = ['\n'] ∨ n = ['\r', '\n']

/-- The claim's reading of the classifier fingerprint, following the
specification wording (§4.2): within the first 2000 characters, a line
STARTING with a dash bullet, followed by a blank line, followed by a line
starting with an uppercase letter.  `atStart` tracks whether the current
position is at the beginning of a line. -/
def specLineStartScan (atStart : Bool) : List Char → Bool
  | [] => false
  | c :: rest =>
    (atStart && c = '-' && dashSpaceScan rest) || specLineStartScan (c = '\n') rest

/-- The claim's outline fingerprint: the scan above, restricted to the
first 2000 characters of the document. -/
def claimOutlinePattern (doc : String) : Bool :=
  specLineStartScan true (doc.toList.take 2000)

/-- A pydantic model field: its name and whether the declaration gives it
a default (`Field(default_factory=...)`, `Field(default=...)`, or `= None`). -/
structure PydField where
  name : String
  hasDefault : Bool

/-- The fields of `models.ProcessingResult` exactly as declared in
`models.py` (lines 51-57): `ids`, `documents` and `doc_metadatas` have
`default_factory=list`, `chunk_count` has `default=0`, but
`file_metadatas : FileMetadata` is declared WITHOUT a default. -/
def processingResultFields : List PydField :=
  [⟨"ids", true⟩, ⟨"documents", true⟩, ⟨"doc_metadatas", true⟩,
   ⟨"file_metadatas", false⟩, ⟨"chunk_count", true⟩]

/-- Pydantic model construction: validation fails (a `ValidationError` is
raised) iff some field without a default is not among the provided keyword
arguments. -/
def pydanticConstruct (fields : List PydField) (provided : List String) :
    Except String Unit :=
  match fields.find? (fun f => !f.hasDefault && !(provided.contains f.name)) with
  | some f => Except.error ("ValidationError: " ++ f.name ++ " field required")
  | none => Except.ok ()

/-- The entry of `document_processor.process_document_content`
(lines 203-224): it first evaluates `result = ProcessingResult()` with no
arguments, then, if the content is empty or whitespace-only, prints a
warning and returns the (empty) result — modelled as `some []`, zero
chunks.  A non-empty content proceeds to the chunking branches, which this
claim does not concern: modelled as `none`.  An `Except.error` models an
exception escaping to the caller. -/
def process_document_content_entry (content : String) :
    Except String (Option (List String)) :=
  match pydanticConstruct processingResultFields [] with
  | Except.error e => Except.error e
  | Except.ok _ =>
    if pyStrip content.toList = [] then Except.ok (some [])
    else Except.ok none

/-- Modelled from the spec: the per-chunk `section` metadata computed by
the metadata assembler of the chunking module (`process_single_file`),
whose source is not under `src/` (only its import and callers are).  Per
§4.6: the `section` is the heading portion of the serialized
`"heading [SEP] content"` chunk string when present, else the sentinel
`"No Heading"`. -/
def sectionOf (chunk : List Char) : List Char :=
  match findSub sepSEP chunk with
  | some (pre, _) => pre
  | none => ("No Heading").toList

/-- Modelled from the spec: the default token ceiling of the token-budget
splitter (§4.5, `max_chunk_tokens` default 300); the splitter itself lives
in the chunking module providing `process_single_file`, which is not
under `src/`. -/
def maxChunkTokens : Nat := 300

/-- Split into whitespace-separated words. -/
def pyWordsGo (cur : List Char) : List Char → List (List Char)
  | [] => if cur = [] then [] else [cur.reverse]
  | c :: rest =>
    if isPySpace c then
      (if cur = [] then pyWordsGo [] rest else cur.reverse :: pyWordsGo [] rest)
    else pyWordsGo (c :: cur) rest

/-- The words of a chunk. -/
def pyWords (l : List Char) : List (List Char) :=
  pyWordsGo [] l

/-- Approximate word count of a chunk. -/
def countWords (l : List Char) : Nat :=
  (pyWords l).length

/-- Modelled from the spec: the approximate token count of a chunk, using
the spec's conversion ratio of ~0.75 words per token (§4.5), i.e. tokens ≈
words × 4⁄3 (integer division). -/
def countTokens (l : List Char) : Nat :=
  countWords l * 4 / 3

/-- Zero or more digits followed by a dot. -/
def digitsThenDot : List Char → Bool
  | [] => false
  | c :: rest => c = '.' || (c.isDigit && digitsThenDot rest)

/-- The head of the list is a space. -/
def headIsSpace : List Char → Bool
  | [] => false
  | c :: _ => c = ' '

/-- Modelled from the spec: a structural list marker at this position — a
newline followed by a `"- "` bullet or by a `<digits>.` numbered item
(§4.5 step 2). -/
def markerAt : List Char → Bool
  | [] => false
  | [_] => false
  | c :: c2 :: r2 =>
    c = '\n' && ((c2 = '-' && headIsSpace r2) || (c2.isDigit && digitsThenDot r2))

/-- Some position of the chunk starts a list marker. -/
def hasMarkerGo : List Char → Bool
  | [] => false
  | c :: rest => markerAt (c :: rest) || hasMarkerGo rest

/-- Split the chunk at list markers, keeping each marker with the segment
that follows it. -/
def splitMarkersGo (cur : List Char) : List Char → List (List Char)
  | [] => [cur.reverse]
  | c :: rest =>
    if markerAt (c :: rest) then cur.reverse :: splitMarkersGo [c] rest
    else splitMarkersGo (c :: cur) rest

/-- Sentence-ending punctuation. -/
def sentEnd (c : Char) : Bool :=
  c = '.' || c = '!' || c = '?'

/-- Some position of the chunk ends a sentence: `.`, `!` or `?` followed
by whitespace (§4.5 step 3). -/
def hasSentenceEnd : List Char → Bool
  | [] => false
  | [_] => false
  | c :: c2 :: rest => (sentEnd c && isPySpace c2) || hasSentenceEnd (c2 :: rest)

/-- Split the chunk into sentences, keeping the punctuation and the
following whitespace character with the preceding sentence. -/
def splitSentencesGo (cur : List Char) : List Char → List (List Char)
  | [] => [cur.reverse]
  | [c] => [(c :: cur).reverse]
  | c :: c2 :: rest =>
    if sentEnd c && isPySpace c2 then
      (c2 :: c :: cur).reverse :: splitSentencesGo [] rest
    else splitSentencesGo (c :: cur) (c2 :: rest)

/-- Modelled from the spec: greedily accumulate segments into running
chunks, flushing whenever adding the next segment would exceed the
ceiling (§4.5 steps 2-3). -/
def greedyGo (T : Nat) (cur : List Char) : List (List Char) → List (List Char)
  | [] => if cur = [] then [] else [cur]
  | s :: rest =>
    if cur = [] then greedyGo T s rest
    else if T < countTokens (cur ++ s) then cur :: greedyGo T s rest
    else greedyGo T (cur ++ s) rest

/-- Modelled from the spec: the word-batch size, `ceiling × 0.75` words
per batch, at least one (§4.5 step 4). -/
def wordsPerBatch (T : Nat) : Nat :=
  max 1 (T * 3 / 4)

/-- Group words into batches of `n + 1` words, joined by single spaces. -/
def batchWords : Nat → List (List Char) → List (List Char)
  | _, [] => []
  | n, w :: rest => joinSp (w :: rest.take n) :: batchWords n (rest.drop n)
termination_by n ws => ws.length
decreasing_by
  simp only [List.length_cons, List.length_drop]
  omega

/-- Modelled from the spec: one splitting pass of the token-budget
splitter, trying the strategies in precedence order — list markers, then
sentences, then fixed-size word batches (§4.5). -/
def splitOnce (T : Nat) (c : List Char) : List (List Char) :=
  if hasMarkerGo c then greedyGo T [] (splitMarkersGo [] c)
  else if hasSentenceEnd c then greedyGo T [] (splitSentencesGo [] c)
  else batchWords (wordsPerBatch T - 1) (pyWords c)

/-- One splitting pass makes progress on this chunk: it yields at least
two pieces, each with strictly fewer words. -/
def CanReduce (T : Nat) (c : List Char) : Prop :=
  2 ≤ (splitOnce T c).length ∧ ∀ p ∈ splitOnce T c, countWords p < countWords c

instance (T : Nat) (c : List Char) : Decidable (CanReduce T c) :=
  inferInstanceAs (Decidable (_ ∧ _))

/-- Modelled from the spec: the recursive token-budget splitter (§4.5): a
chunk within the ceiling is returned unchanged; otherwise it is split once
and the procedure is re-applied to the sub-chunks; if no split strategy
can reduce the chunk (degenerate input), the original chunk is returned
as-is — the explicit base case. -/
def splitTokenBudget (T : Nat) (c : List Char) : List (List Char) :=
  if countTokens c ≤ T then [c]
  else if h2 : CanReduce T c then
    ((splitOnce T c).attach.map fun q => splitTokenBudget T q.1).flatten
  else [c]
termination_by countWords c
decreasing_by exact h2.2 q.1 q.2

/-- A string on which the newline-unwrapping substitution (`nl2sp`) is a
fixpoint: every newline is preceded by a newline or followed by a newline
or a bullet marker (mirrors `nl2spGo`, scanned with previous-char flag). -/
def good3Go (prevNL : Bool) : List Char → Bool
  | [] => true
  | c :: rest =>
    (if c = '\n' then prevNL || lookKeepNL rest else true) && good3Go (c = '\n') rest

/-- A string on which newline-run collapsing (`collapseNL`) is a fixpoint:
no run of more than two newlines (`k` counts the current run). -/
def good4Go (k : Nat) : List Char → Bool
  | [] => true
  | c :: rest =>
    if c = '\n' then decide (k < 2) && good4Go (k + 1) rest
    else good4Go 0 rest

/-- A string on which space-run collapsing (`collapseSp`) is a fixpoint:
every space is emitted by the collapsing scan (mirrors `collapseSpGo`). -/
def good5Go (afterNL : Bool) (k : Nat) : List Char → Bool
  | [] => true
  | c :: rest =>
    if c = ' ' then (k = 0 || (afterNL && k = 1)) && good5Go afterNL (k + 1) rest
    else good5Go (c = '\n') 0 rest

/-- The number of spaces of the current run that the space-collapsing
scan has already emitted. -/
def emitCnt (a : Bool) (k : Nat) : Nat :=
  if a then min k 2 else min k 1

/-! ### Theorems -/

theorem findSub_eq {sep : List Char} :
    ∀ {l a b : List Char}, findSub sep l = some (a, b) → l = a ++ sep ++ b := by
  intro l
  induction l with
  | nil =>
    intro a b h
    simp only [findSub] at h
    split at h
    · rename_i hsep
      simp only [Option.some.injEq, Prod.mk.injEq] at h
      simp [List.isEmpty_iff.mp hsep, ← h.1, ← h.2]
    · exact absurd h (by simp)
  | cons c rest ih =>
    intro a b h
    simp only [findSub] at h
    split at h
    · rename_i hpre
      simp only [Option.some.injEq, Prod.mk.injEq] at h
      obtain ⟨rfl, rfl⟩ := h
      obtain ⟨t, ht⟩ := List.isPrefixOf_iff_prefix.mp hpre
      conv_lhs => rw [← ht]
      simp [← ht, List.drop_left]
    · split at h
      · rename_i a' b' hrec
        simp only [Option.some.injEq, Prod.mk.injEq] at h
        obtain ⟨rfl, rfl⟩ := h
        simp [ih hrec]
      · exact absurd h (by simp)

theorem dropWhile_head_not {p : Char → Bool} {l : List Char} {c : Char}
    (h : (l.dropWhile p).head? = some c) : p c = false := by
  induction l with
  | nil => simp [List.dropWhile] at h
  | cons a rest ih =>
    rw [List.dropWhile_cons] at h
    split at h
    · exact ih h
    · rename_i hpa
      simp only [List.head?_cons, Option.some.injEq] at h
      subst h
      simpa using hpa

theorem dropEndWhile_getLast_not {p : Char → Bool} {l : List Char} {c : Char}
    (h : (dropEndWhile p l).getLast? = some c) : p c = false := by
  unfold dropEndWhile at h
  rw [List.getLast?_reverse] at h
  exact dropWhile_head_not h

theorem dropEndWhile_head_eq {p : Char → Bool} {l : List Char}
    (h : ∀ c, l.head? = some c → p c = false) :
    (dropEndWhile p l).head? = l.head? := by
  unfold dropEndWhile
  cases l with
  | nil => simp
  | cons a rest =>
    have ha : p a = false := h a rfl
    simp only [List.reverse_cons]
    rw [List.dropWhile_append]
    rcases hd : (rest.reverse.dropWhile p) with _ | ⟨b, tl⟩
    · simp [List.dropWhile_cons, ha]
    · simp [hd]

theorem dropWhile_eq_self_of_head {p : Char → Bool} {l : List Char}
    (h : ∀ c, l.head? = some c → p c = false) : l.dropWhile p = l := by
  cases l with
  | nil => rfl
  | cons a rest => simp [List.dropWhile_cons, h a rfl]

theorem dropEndWhile_eq_self_of_getLast {p : Char → Bool} {l : List Char}
    (h : ∀ c, l.getLast? = some c → p c = false) : dropEndWhile p l = l := by
  unfold dropEndWhile
  rw [dropWhile_eq_self_of_head, List.reverse_reverse]
  intro c hc
  exact h c (by rwa [← List.getLast?_reverse, List.reverse_reverse] at hc)

/-- `pyStrip` is the identity on strings without edge whitespace. -/
theorem pyStrip_eq_self {l : List Char} (h : NoEdgeSpace l) : pyStrip l = l := by
  unfold pyStrip
  rw [dropWhile_eq_self_of_head h.1, dropEndWhile_eq_self_of_getLast h.2]

theorem pyStrip_noEdgeSpace (l : List Char) : NoEdgeSpace (pyStrip l) := by
  constructor
  · intro c hc
    unfold pyStrip at hc
    rw [dropEndWhile_head_eq (fun d hd => dropWhile_head_not hd)] at hc
    exact dropWhile_head_not hc
  · intro c hc
    exact dropEndWhile_getLast_not hc

theorem pyStrip_idem (l : List Char) : pyStrip (pyStrip l) = pyStrip l :=
  pyStrip_eq_self (pyStrip_noEdgeSpace l)

theorem pyStrip_sublist (l : List Char) : List.Sublist (pyStrip l) l := by
  unfold pyStrip dropEndWhile
  have h1 := List.reverse_sublist.mpr
    (List.dropWhile_sublist (p := isPySpace) (l := (l.dropWhile isPySpace).reverse))
  rw [List.reverse_reverse] at h1
  exact h1.trans (List.dropWhile_sublist _)

theorem joinSp_head? {x : List Char} {xs : List (List Char)} (hx : x ≠ []) :
    (joinSp (x :: xs)).head? = x.head? := by
  cases xs with
  | nil => rfl
  | cons y ys =>
    show (x ++ ' ' :: joinSp (y :: ys)).head? = x.head?
    cases x with
    | nil => exact absurd rfl hx
    | cons a t => simp

theorem joinSp_ne_nil {x : List Char} {xs : List (List Char)} (hx : x ≠ []) :
    joinSp (x :: xs) ≠ [] := by
  intro hnil
  cases x with
  | nil => exact hx rfl
  | cons a t =>
    have := @joinSp_head? (a :: t) xs (by simp)
    rw [hnil] at this
    simp at this

theorem joinSp_getLast?_eq :
    ∀ (xs : List (List Char)) (z : List Char), (∀ y ∈ xs, y ≠ []) →
      xs.getLast? = some z → (joinSp xs).getLast? = z.getLast? := by
  intro xs
  induction xs with
  | nil => intro z _ hz; simp at hz
  | cons x ys ih =>
    intro z hne hz
    cases ys with
    | nil =>
      simp only [List.getLast?_singleton, Option.some.injEq] at hz
      subst hz
      rfl
    | cons y ws =>
      rw [List.getLast?_cons_cons] at hz
      have hy : y ≠ [] := hne y (by simp)
      have hj : joinSp (y :: ws) ≠ [] := joinSp_ne_nil hy
      show (x ++ ' ' :: joinSp (y :: ws)).getLast? = z.getLast?
      rw [List.getLast?_append_of_ne_nil _ (by simp : (' ' :: joinSp (y :: ws)) ≠ [])]
      have : (' ' :: joinSp (y :: ws)) = [' '] ++ joinSp (y :: ws) := by simp
      rw [this, List.getLast?_append_of_ne_nil _ hj]
      exact ih z (fun u hu => hne u (by simp [hu])) hz

/-- Joining non-empty edge-whitespace-free strings with single spaces
yields an edge-whitespace-free string. -/
theorem joinSp_noEdgeSpace {xs : List (List Char)}
    (h : ∀ x ∈ xs, x ≠ [] ∧ NoEdgeSpace x) (hne : xs ≠ []) :
    NoEdgeSpace (joinSp xs) := by
  cases xs with
  | nil => exact absurd rfl hne
  | cons x rest =>
    have hx := h x (by simp)
    constructor
    · intro c hc
      rw [joinSp_head? hx.1] at hc
      exact hx.2.1 c hc
    · intro c hc
      have hsome : ∃ z, (x :: rest).getLast? = some z := by
        cases hg : (x :: rest).getLast? with
        | none => simp at hg
        | some z => exact ⟨z, rfl⟩
      obtain ⟨z, hz⟩ := hsome
      have hzmem : z ∈ x :: rest := List.mem_of_mem_getLast? hz
      rw [joinSp_getLast?_eq (x :: rest) z (fun y hy => (h y hy).1) hz] at hc
      exact (h z hzmem).2.2 c hc

theorem splitTextGo_eq_segmentGo :
    ∀ (ps : List (List Char)) (hs : List (List Char)) (hd : List Char)
      (content chunks : List (List Char)),
      splitTextGo hs hd content chunks ps =
        chunks ++ (segmentGo hs hd content ps).map serializeChunk := by
  intro ps
  induction ps with
  | nil =>
    intro hs hd content chunks
    simp only [splitTextGo, segmentGo]
    by_cases h1 : hd ≠ [] ∧ content ≠ []
    · simp [h1, serializeChunk, h1.1]
    · by_cases h2 : content ≠ [] ∧ hd = []
      · simp [h1, h2, serializeChunk, h2.2]
      · simp [h1, h2]
  | cons p ps ih =>
    intro hs hd content chunks
    simp only [splitTextGo, segmentGo]
    by_cases hq : pyStrip p = []
    · simp only [hq, if_pos rfl]
      exact ih hs hd content chunks
    · simp only [if_neg hq]
      by_cases hm : hs ≠ [] ∧ pyStrip p ∈ hs
      · simp only [if_pos hm]
        rw [ih]
        by_cases h1 : hd ≠ [] ∧ content ≠ []
        · simp [h1, serializeChunk, h1.1]
        · simp [h1]
      · simp only [if_neg hm]
        exact ih hs hd (content ++ [pyStrip p]) chunks

theorem split_text_eq_segment (toc text : String) :
    split_text toc text = (segment toc text).map fun c => String.mk (serializeChunk c) := by
  unfold split_text segment
  rw [splitTextGo_eq_segmentGo]
  simp

theorem segmentGo_head_mem :
    ∀ (ps hs : List (List Char)) (hd : List Char) (content : List (List Char))
      (x : List Char × List (List Char)), x ∈ segmentGo hs hd content ps →
      x.1 = hd ∨ x.1 ∈ hs := by
  intro ps
  induction ps with
  | nil =>
    intro hs hd content x hx
    simp only [segmentGo] at hx
    split at hx
    · simp only [List.mem_singleton] at hx
      subst hx
      exact Or.inl rfl
    · split at hx
      · rename_i h2
        simp only [List.mem_singleton] at hx
        subst hx
        exact Or.inl h2.2.symm
      · simp at hx
  | cons p ps ih =>
    intro hs hd content x hx
    simp only [segmentGo] at hx
    split at hx
    · exact ih hs hd content x hx
    · split at hx
      · rename_i hq hm
        rw [List.mem_append] at hx
        rcases hx with hx | hx
        · split at hx
          · simp only [List.mem_singleton] at hx
            subst hx
            exact Or.inl rfl
          · simp at hx
        · rcases ih (hs.erase (pyStrip p)) (pyStrip p) [] x hx with h | h
          · exact Or.inr (h ▸ hm.2)
          · exact Or.inr (List.mem_of_mem_erase h)
      · exact ih hs hd (content ++ [pyStrip p]) x hx

theorem segmentGo_heads_nodup :
    ∀ (ps hs : List (List Char)) (hd : List Char) (content : List (List Char)),
      hs.Nodup → hd ∉ hs →
      ((segmentGo hs hd content ps).map Prod.fst).Nodup := by
  intro ps
  induction ps with
  | nil =>
    intro hs hd content _ _
    simp only [segmentGo]
    split
    · simp
    · split
      · simp
      · simp
  | cons p ps ih =>
    intro hs hd content hnd hni
    simp only [segmentGo]
    split
    · exact ih hs hd content hnd hni
    · split
      · rename_i hq hm
        rw [List.map_append]
        have hdisj : pyStrip p ∉ hs.erase (pyStrip p) := List.Nodup.not_mem_erase hnd
        have hrec := ih (hs.erase (pyStrip p)) (pyStrip p) [] (hnd.erase _) hdisj
        refine List.Nodup.append ?_ hrec ?_
        · split
          · simp
          · simp
        · intro a ha1 ha2
          have ha : a = hd := by
            split at ha1
            · simpa using ha1
            · simp at ha1
          subst ha
          obtain ⟨x, hx, hax⟩ := List.mem_map.mp ha2
          rcases segmentGo_head_mem ps (hs.erase (pyStrip p)) (pyStrip p) [] x hx with h | h
          · rw [hax] at h
            exact hni (h ▸ hm.2)
          · rw [hax] at h
            exact hni (List.mem_of_mem_erase h)
      · exact ih hs hd (content ++ [pyStrip p]) hnd hni

/-- Every content paragraph of every chunk satisfies any property that
holds for the pending content and for the stripped non-blank paragraphs. -/
theorem segmentGo_content_mem (P : List Char → Prop) :
    ∀ (ps hs : List (List Char)) (hd : List Char) (content : List (List Char)),
      (∀ q ∈ content, P q) → (∀ p ∈ ps, pyStrip p ≠ [] → P (pyStrip p)) →
      ∀ x ∈ segmentGo hs hd content ps, x.2 ≠ [] ∧ ∀ q ∈ x.2, P q := by
  intro ps
  induction ps with
  | nil =>
    intro hs hd content hc _ x hx
    simp only [segmentGo] at hx
    split at hx
    · rename_i h1
      simp only [List.mem_singleton] at hx
      subst hx
      exact ⟨h1.2, hc⟩
    · split at hx
      · rename_i h2
        simp only [List.mem_singleton] at hx
        subst hx
        exact ⟨h2.1, hc⟩
      · simp at hx
  | cons p ps ih =>
    intro hs hd content hc hp x hx
    simp only [segmentGo] at hx
    split at hx
    · exact ih hs hd content hc (fun r hr => hp r (by simp [hr])) x hx
    · split at hx
      · rw [List.mem_append] at hx
        rcases hx with hx | hx
        · split at hx
          · rename_i h1
            simp only [List.mem_singleton] at hx
            subst hx
            exact ⟨h1.2, hc⟩
          · simp at hx
        · exact ih (hs.erase (pyStrip p)) (pyStrip p) [] (by simp)
            (fun r hr => hp r (by simp [hr])) x hx
      · rename_i hq _
        refine ih hs hd (content ++ [pyStrip p]) ?_ (fun r hr => hp r (by simp [hr])) x hx
        intro q hq2
        rw [List.mem_append] at hq2
        rcases hq2 with h | h
        · exact hc q h
        · simp only [List.mem_singleton] at h
          subst h
          exact hp p (by simp) hq

/-- The concatenated chunk contents are a sublist of the pending content
followed by the stripped non-blank paragraphs: no paragraph is invented or
duplicated, and order is preserved. -/
theorem segmentGo_contents_sublist :
    ∀ (ps hs : List (List Char)) (hd : List Char) (content : List (List Char)),
      List.Sublist ((segmentGo hs hd content ps).map Prod.snd).flatten
        (content ++ nbListOf ps) := by
  intro ps
  induction ps with
  | nil =>
    intro hs hd content
    simp only [segmentGo, nbListOf]
    split
    · simp
    · split
      · simp
      · simp
  | cons p ps ih =>
    intro hs hd content
    simp only [segmentGo, nbListOf, List.map_cons, List.filter_cons]
    by_cases hq : pyStrip p = []
    · simp only [hq, if_pos rfl]
      have := ih hs hd content
      simpa [nbListOf, hq] using this
    · simp only [if_neg hq]
      have hqf : (decide (pyStrip p ≠ [])) = true := by simpa using hq
      rw [hqf]
      simp only [if_true]
      by_cases hm : hs ≠ [] ∧ pyStrip p ∈ hs
      · simp only [if_pos hm, List.map_append, List.flatten_append]
        have hrec := ih (hs.erase (pyStrip p)) (pyStrip p) []
        split
        · rename_i h1
          simp only [List.map_singleton, List.flatten_cons, List.flatten_nil, List.append_nil]
          refine List.Sublist.append (List.Sublist.refl content) ?_
          simpa [nbListOf] using List.Sublist.cons (pyStrip p) (by simpa [nbListOf] using hrec)
        · simp only [List.map_nil, List.flatten_nil, List.nil_append]
          refine List.Sublist.trans ?_ (List.sublist_append_right content _)
          simpa [nbListOf] using List.Sublist.cons (pyStrip p) (by simpa [nbListOf] using hrec)
      · simp only [if_neg hm]
        have := ih hs hd (content ++ [pyStrip p])
        simpa [nbListOf] using this

/-- When no paragraph matches a heading, the scan (started with no active
heading) accumulates every non-blank paragraph and emits at most one
headless chunk. -/
theorem segmentGo_noMatch :
    ∀ (ps hs : List (List Char)) (content : List (List Char)),
      (∀ p ∈ ps, pyStrip p ∉ hs) →
      segmentGo hs [] content ps =
        (if content ++ nbListOf ps = [] then []
         else [([], content ++ nbListOf ps)]) := by
  intro ps
  induction ps with
  | nil =>
    intro hs content _
    simp only [segmentGo, nbListOf, List.map_nil, List.filter_nil, List.append_nil]
    by_cases hc : content = []
    · simp [hc]
    · simp [hc]
  | cons p ps ih =>
    intro hs content hnm
    simp only [segmentGo, nbListOf, List.map_cons, List.filter_cons]
    by_cases hq : pyStrip p = []
    · simp only [hq, if_pos rfl]
      rw [ih hs content (fun r hr => hnm r (by simp [hr]))]
      simp [nbListOf, hq]
    · simp only [if_neg hq]
      have hm : ¬(hs ≠ [] ∧ pyStrip p ∈ hs) := by
        rintro ⟨_, hmem⟩
        exact hnm p (by simp) hmem
      simp only [if_neg hm]
      rw [ih hs (content ++ [pyStrip p]) (fun r hr => hnm r (by simp [hr]))]
      have hqf : (decide (pyStrip p ≠ [])) = true := by simpa using hq
      simp only [nbListOf, List.filter_cons, hqf, if_true]
      simp

theorem nil_not_mem_parseHeadings (toc : List Char) : [] ∉ parseHeadings toc := by
  unfold parseHeadings
  split
  · simp
  · intro h
    simp only [List.mem_filterMap] at h
    obtain ⟨line, _, hline⟩ := h
    split at hline
    · simp at hline
    · rename_i hne
      simp only [Option.some.injEq] at hline
      exact hne hline

theorem parseHeadings_mem {toc h : List Char} (hm : h ∈ parseHeadings toc) :
    h ≠ [] ∧ NoEdgeSpace h := by
  unfold parseHeadings at hm
  split at hm
  · simp at hm
  · simp only [List.mem_filterMap] at hm
    obtain ⟨line, _, hline⟩ := hm
    split at hline
    · simp at hline
    · rename_i hne
      simp only [Option.some.injEq] at hline
      subst hline
      exact ⟨hne, pyStrip_noEdgeSpace _⟩

theorem nbParas_mem {text : String} {q : List Char} (h : q ∈ nbParas text) :
    q ≠ [] ∧ NoEdgeSpace q ∧ ∃ p ∈ paragraphsOf text.toList, q = pyStrip p := by
  unfold nbParas nbListOf at h
  rw [List.mem_filter] at h
  obtain ⟨hmem, hne⟩ := h
  rw [List.mem_map] at hmem
  obtain ⟨p, hp, rfl⟩ := hmem
  exact ⟨by simpa using hne, pyStrip_noEdgeSpace _, p, hp, rfl⟩

theorem mem_nbParas {text : String} {p : List Char}
    (hp : p ∈ paragraphsOf text.toList) (hne : pyStrip p ≠ []) :
    pyStrip p ∈ nbParas text := by
  unfold nbParas nbListOf
  rw [List.mem_filter]
  exact ⟨List.mem_map_of_mem _ hp, by simpa using hne⟩

/-- Claim C8 (confirmed): on outline `"- Intro\n- Details"` and body
`"Intro\n\nSome text.\n\nDetails\n\nMore text."`, `split_text` returns
exactly the two chunks `"Intro [SEP] Some text."` and
`"Details [SEP] More text."`, in that order. -/
theorem c8_split_text_example :
    split_text ("- Intro\n- Details") ("Intro\n\nSome text.\n\nDetails\n\nMore text.") =
      ["Intro [SEP] Some text.", "Details [SEP] More text."] := by
  decide

/-- Claim C1, counterexample: with outline `"- Intro"` and body
`"Lost.\n\nIntro\n\nKept."`, the non-blank paragraph `"Lost."` (which
precedes the first heading match) appears in no chunk content, so
concatenating chunk contents does not reconstruct every non-blank
paragraph: the segmenter returns the single chunk `"Intro [SEP] Kept."`. -/
theorem c1_coverage_counterexample :
    split_text ("- Intro") ("Lost.\n\nIntro\n\nKept.") = ["Intro [SEP] Kept."] ∧
    ("Lost.".toList ∈ nbParas ("Lost.\n\nIntro\n\nKept.")) ∧
    ((segment ("- Intro") ("Lost.\n\nIntro\n\nKept.")).map Prod.snd).flatten ≠
      nbParas ("Lost.\n\nIntro\n\nKept.") := by
  refine ⟨by decide, by decide, by decide⟩

/-- The segmentation when no paragraph matches a heading: at most one
headless chunk holding all non-blank paragraphs. -/
theorem segment_noMatch (toc text : String)
    (hnm2 : ∀ p ∈ paragraphsOf text.toList, pyStrip p ∉ parseHeadings toc.toList) :
    segment toc text = (if nbParas text = [] then [] else [([], nbParas text)]) := by
  unfold segment nbParas
  rw [segmentGo_noMatch (paragraphsOf text.toList) (parseHeadings toc.toList) [] hnm2]
  simp only [List.nil_append]

/-- Claim C1 (amended): `split_text` serializes the structured
segmentation; concatenating the chunk contents yields a sublist of the
non-blank trimmed paragraphs of the body (no paragraph duplicated or
invented, order preserved); and when no paragraph matches a heading the
concatenation is exactly the non-blank paragraph list (nothing dropped).
Paragraphs before the first heading match can be dropped
(`c1_coverage_counterexample`). -/
theorem c1_split_text_coverage_amended (toc text : String) :
    split_text toc text = (segment toc text).map (fun c => String.mk (serializeChunk c)) ∧
    List.Sublist ((segment toc text).map Prod.snd).flatten (nbParas text) ∧
    ((∀ p ∈ nbParas text, p ∉ parseHeadings toc.toList) →
      ((segment toc text).map Prod.snd).flatten = nbParas text) := by
  refine ⟨split_text_eq_segment toc text, ?_, ?_⟩
  · have := segmentGo_contents_sublist (paragraphsOf text.toList)
      (parseHeadings toc.toList) [] []
    simpa [segment, nbParas] using this
  · intro hnm
    have hnm2 : ∀ p ∈ paragraphsOf text.toList, pyStrip p ∉ parseHeadings toc.toList := by
      intro p hp hmem
      by_cases hq : pyStrip p = []
      · rw [hq] at hmem
        exact nil_not_mem_parseHeadings _ hmem
      · exact hnm (pyStrip p) (mem_nbParas hp hq) hmem
    rw [segment_noMatch toc text hnm2]
    by_cases hnb : nbParas text = []
    · simp [hnb]
    · simp [hnb]

/-- Closed instance of `c1_split_text_coverage_amended` discharging its
conditional clause at a concrete input with an empty outline. -/
theorem c1_split_text_coverage_amended_witness :
    ((segment ("") ("A.\n\nB.")).map Prod.snd).flatten = nbParas ("A.\n\nB.") :=
  (c1_split_text_coverage_amended ("") ("A.\n\nB.")).2.2 (by decide)

/-- Claim C7 (confirmed): when the parsed outline headings are pairwise
distinct, the headings carried by the chunks of `split_text` are pairwise
distinct — each heading is erased from the remaining-headings list when
first matched, so it can bind to at most one chunk. -/
theorem c7_split_text_unique_headings (toc text : String)
    (hnd : (parseHeadings toc.toList).Nodup) :
    ((segment toc text).map Prod.fst).Nodup ∧
    split_text toc text = (segment toc text).map (fun c => String.mk (serializeChunk c)) := by
  refine ⟨?_, split_text_eq_segment toc text⟩
  exact segmentGo_heads_nodup (paragraphsOf text.toList) (parseHeadings toc.toList)
    [] [] hnd (nil_not_mem_parseHeadings _)

/-- Closed instance of `c7_split_text_unique_headings` at a concrete
input, discharging the distinctness hypothesis. -/
theorem c7_split_text_unique_headings_witness :
    ((segment ("- Intro\n- Details") ("Intro\n\nSome text.\n\nDetails\n\nMore text.")).map
      Prod.fst).Nodup :=
  (c7_split_text_unique_headings ("- Intro\n- Details")
    ("Intro\n\nSome text.\n\nDetails\n\nMore text.") (by decide)).1

/-- Claim C9 (confirmed): when no paragraph matches a heading (in
particular with an empty outline) and the body has at least one non-blank
paragraph, `split_text` returns exactly one headless chunk, the non-blank
trimmed paragraphs joined by single spaces. -/
theorem c9_split_text_headless_chunk (toc text : String)
    (hnm : ∀ p ∈ nbParas text, p ∉ parseHeadings toc.toList)
    (hne : nbParas text ≠ []) :
    split_text toc text = [String.mk (joinSp (nbParas text))] := by
  have hnm2 : ∀ p ∈ paragraphsOf text.toList, pyStrip p ∉ parseHeadings toc.toList := by
    intro p hp hmem
    by_cases hq : pyStrip p = []
    · rw [hq] at hmem
      exact nil_not_mem_parseHeadings _ hmem
    · exact hnm (pyStrip p) (mem_nbParas hp hq) hmem
  rw [split_text_eq_segment, segment_noMatch toc text hnm2, if_neg hne]
  simp only [List.map_cons, List.map_nil]
  have hser : serializeChunk ([], nbParas text) = pyStrip (joinSp (nbParas text)) := by
    simp [serializeChunk]
  rw [hser, pyStrip_eq_self]
  exact joinSp_noEdgeSpace
    (fun x hx => ⟨(nbParas_mem hx).1, (nbParas_mem hx).2.1⟩) hne

/-- Closed instance of `c9_split_text_headless_chunk` at the
specification example: empty outline, body `"Paragraph one.\n\nParagraph
two."`, yielding `"Paragraph one. Paragraph two."`. -/
theorem c9_split_text_headless_chunk_witness :
    split_text ("") ("Paragraph one.\n\nParagraph two.") =
      [String.mk (joinSp (nbParas ("Paragraph one.\n\nParagraph two.")))] :=
  c9_split_text_headless_chunk ("") ("Paragraph one.\n\nParagraph two.")
    (by decide) (by decide)

/-- Claim C10 (confirmed): `identify_doc_type` is total and returns one of
the two tags `"TOC_WITHOUT_TITLE"` and `"NO_TOC_TITLE"`, never
`"TOC_WITH_TITLE"`, so the title-stripping branch of `read_doc` is dead
code: `read_doc_core` coincides with the branch-free
`read_doc_no_title_branch` on every converted document. -/
theorem c10_identify_doc_type_two_tags (doc : String) :
    (identify_doc_type doc = "TOC_WITHOUT_TITLE" ∨
      identify_doc_type doc = "NO_TOC_TITLE") ∧
    identify_doc_type doc ≠ "TOC_WITH_TITLE" ∧
    read_doc_core doc = read_doc_no_title_branch doc := by
  by_cases h : hasDashPattern doc.toList
  · have hid : identify_doc_type doc = "TOC_WITHOUT_TITLE" := by
      rw [identify_doc_type, if_pos h]
    refine ⟨Or.inl hid, ?_, ?_⟩
    · rw [hid]
      decide
    · unfold read_doc_core read_doc_no_title_branch
      rw [hid]
      simp
  · have hid : identify_doc_type doc = "NO_TOC_TITLE" := by
      rw [identify_doc_type, if_neg h]
    refine ⟨Or.inr hid, ?_, ?_⟩
    · rw [hid]
      decide
    · unfold read_doc_core read_doc_no_title_branch
      rw [hid]
      simp

theorem stripRN_eq_some {l r : List Char} :
    stripRN l = some r ↔ l = '\n' :: r ∨ l = '\r' :: '\n' :: r := by
  constructor
  · intro h
    cases l with
    | nil => simp [stripRN] at h
    | cons c rest =>
      simp only [stripRN] at h
      split at h
      · rename_i hc
        simp only [Option.some.injEq] at h
        subst h
        exact Or.inl (by rw [hc])
      · split at h
        · rename_i hc
          cases rest with
          | nil => simp at h
          | cons c2 r2 =>
            simp only at h
            split at h
            · rename_i hc2
              simp only [Option.some.injEq] at h
              subst h
              exact Or.inr (by rw [hc, hc2])
            · simp at h
        · simp at h
  · intro h
    rcases h with rfl | rfl
    · simp [stripRN]
    · simp [stripRN]

theorem finishAt_iff {l : List Char} :
    finishAt l = true ↔
      ∃ n1 n2 c post, l = n1 ++ n2 ++ c :: post ∧ RNtok n1 ∧ RNtok n2 ∧
        isUpperAZ c = true := by
  constructor
  · intro h
    unfold finishAt at h
    cases hs1 : stripRN l with
    | none => simp only [hs1] at h; exact absurd h (by simp)
    | some r1 =>
      simp only [hs1] at h
      cases hs2 : stripRN r1 with
      | none => simp only [hs2] at h; exact absurd h (by simp)
      | some r2 =>
        simp only [hs2] at h
        cases r2 with
        | nil => simp at h
        | cons c post =>
          have h1 := stripRN_eq_some.mp hs1
          have h2 := stripRN_eq_some.mp hs2
          rcases h1 with h1 | h1 <;> rcases h2 with h2 | h2
          · exact ⟨['\n'], ['\n'], c, post, by rw [h1, h2]; rfl,
              Or.inl rfl, Or.inl rfl, h⟩
          · exact ⟨['\n'], ['\r', '\n'], c, post, by rw [h1, h2]; rfl,
              Or.inl rfl, Or.inr rfl, h⟩
          · exact ⟨['\r', '\n'], ['\n'], c, post, by rw [h1, h2]; rfl,
              Or.inr rfl, Or.inl rfl, h⟩
          · exact ⟨['\r', '\n'], ['\r', '\n'], c, post, by rw [h1, h2]; rfl,
              Or.inr rfl, Or.inr rfl, h⟩
  · rintro ⟨n1, n2, c, post, rfl, hn1, hn2, hc⟩
    have hs1 : stripRN (n1 ++ n2 ++ c :: post) = some (n2 ++ c :: post) := by
      apply stripRN_eq_some.mpr
      rcases hn1 with rfl | rfl
      · exact Or.inl (by simp)
      · exact Or.inr (by simp)
    have hs2 : stripRN (n2 ++ c :: post) = some (c :: post) := by
      apply stripRN_eq_some.mpr
      rcases hn2 with rfl | rfl
      · exact Or.inl (by simp)
      · exact Or.inr (by simp)
    unfold finishAt
    simp only [hs1, hs2]
    exact hc

theorem scanLine_iff {l : List Char} :
    scanLine l = true ↔
      ∃ mid rest, l = mid ++ rest ∧ '\n' ∉ mid ∧ finishAt rest = true := by
  constructor
  · intro h
    induction l with
    | nil => simp [scanLine] at h
    | cons c r ih =>
      simp only [scanLine, Bool.or_eq_true, Bool.and_eq_true] at h
      rcases h with h | ⟨hc, hs⟩
      · exact ⟨[], c :: r, rfl, by simp, h⟩
      · obtain ⟨mid, rest, rfl, hmid, hfin⟩ := ih hs
        refine ⟨c :: mid, rest, rfl, ?_, hfin⟩
        simp only [List.mem_cons, not_or]
        exact ⟨fun he => by simp [he.symm] at hc, hmid⟩
  · rintro ⟨mid, rest, rfl, hmid, hfin⟩
    induction mid with
    | nil =>
      cases rest with
      | nil => simp [finishAt, stripRN] at hfin
      | cons c r =>
        simp only [List.nil_append, scanLine, Bool.or_eq_true]
        exact Or.inl hfin
    | cons m mid ih =>
      simp only [List.cons_append, scanLine, Bool.or_eq_true, Bool.and_eq_true]
      refine Or.inr ⟨?_, ih (fun hm => hmid (by simp [hm]))⟩
      simp only [List.mem_cons, not_or] at hmid
      simpa using fun he => hmid.1 he.symm

theorem hasDashPattern_iff {l : List Char} :
    hasDashPattern l = true ↔
      ∃ pre r, l = pre ++ '-' :: ' ' :: r ∧ scanLine r = true := by
  constructor
  · intro h
    induction l with
    | nil => simp [hasDashPattern] at h
    | cons c rest ih =>
      simp only [hasDashPattern, Bool.or_eq_true, Bool.and_eq_true] at h
      rcases h with ⟨hc, hd⟩ | h
      · cases rest with
        | nil => simp [dashSpaceScan] at hd
        | cons c2 r =>
          simp only [dashSpaceScan, Bool.and_eq_true] at hd
          refine ⟨[], r, ?_, hd.2⟩
          have hc2 : c2 = ' ' := by simpa using hd.1
          have hcc : c = '-' := by simpa using hc
          rw [hcc, hc2]
          rfl
      · obtain ⟨pre, r, rfl, hs⟩ := ih h
        exact ⟨c :: pre, r, rfl, hs⟩
  · rintro ⟨pre, r, rfl, hs⟩
    induction pre with
    | nil =>
      simp only [List.nil_append, hasDashPattern, Bool.or_eq_true, Bool.and_eq_true]
      exact Or.inl ⟨by simp, by simp [dashSpaceScan, hs]⟩
    | cons p pre ih =>
      simp only [List.cons_append, hasDashPattern, Bool.or_eq_true]
      exact Or.inr ih

/-- Claim C3, counterexample: on `"x - a\n\nB"` the dash bullet does not
start its line, so the claimed fingerprint is absent, yet
`identify_doc_type` classifies the document as having an outline — the
regex `'- .*\r?\n\r?\n[A-Z]'` is unanchored (and unbounded, not limited
to a 2000-character prefix). -/
theorem c3_identify_doc_type_counterexample :
    identify_doc_type ("x - a\n\nB") = "TOC_WITHOUT_TITLE" ∧
      claimOutlinePattern ("x - a\n\nB") = false := by
  refine ⟨by decide, by decide⟩

/-- Claim C3 (amended): `identify_doc_type` returns the has-outline tag
iff the WHOLE document (no 2000-character restriction) contains, at ANY
position (not necessarily at a line start), the literal `"- "` followed by
non-newline characters, then `\r?\n\r?\n`, then an uppercase ASCII letter. -/
theorem c3_identify_doc_type_amended (doc : String) :
    identify_doc_type doc = "TOC_WITHOUT_TITLE" ↔
      ∃ pre mid n1 n2 c post,
        doc.toList = pre ++ '-' :: ' ' :: (mid ++ n1 ++ n2 ++ c :: post) ∧
        '\n' ∉ mid ∧ RNtok n1 ∧ RNtok n2 ∧ isUpperAZ c = true := by
  have hid : identify_doc_type doc = "TOC_WITHOUT_TITLE" ↔
      hasDashPattern doc.toList = true := by
    unfold identify_doc_type
    constructor
    · intro h
      by_contra hb
      rw [if_neg hb] at h
      exact absurd h (by decide)
    · intro h
      rw [if_pos h]
  rw [hid, hasDashPattern_iff]
  constructor
  · rintro ⟨pre, r, hl, hs⟩
    obtain ⟨mid, rest, rfl, hmid, hfin⟩ := scanLine_iff.mp hs
    obtain ⟨n1, n2, c, post, rfl, hn1, hn2, hc⟩ := finishAt_iff.mp hfin
    exact ⟨pre, mid, n1, n2, c, post, by simpa using hl, hmid, hn1, hn2, hc⟩
  · rintro ⟨pre, mid, n1, n2, c, post, hl, hmid, hn1, hn2, hc⟩
    refine ⟨pre, mid ++ n1 ++ n2 ++ c :: post, by simpa using hl, ?_⟩
    apply scanLine_iff.mpr
    exact ⟨mid, n1 ++ n2 ++ c :: post, by simp, hmid,
      finishAt_iff.mpr ⟨n1, n2, c, post, rfl, hn1, hn2, hc⟩⟩

/-- Claim C4 (code_bug): on a whitespace-only content the claim expects a
warning and a zero-chunk result with no exception, but the very first
statement `result = ProcessingResult()` raises a pydantic
`ValidationError`, because `models.ProcessingResult.file_metadatas` is a
required field with no default — `document_processor.py` was written
against a `ProcessingResult` whose `file_metadatas` is a list with a
default, and `models.py` no longer provides that. -/
theorem c4_process_document_content_empty_raises :
    process_document_content_entry ("   ") =
      Except.error ("ValidationError: file_metadatas field required") ∧
    process_document_content_entry ("   ") ≠ Except.ok (some []) := by
  have h : process_document_content_entry ("   ") =
      Except.error ("ValidationError: file_metadatas field required") := rfl
  refine ⟨h, ?_⟩
  rw [h]
  intro hc
  exact Except.noConfusion hc

theorem findSub_none_of_not_mem {sep l : List Char} {c : Char}
    (hc : c ∈ sep) (hl : c ∉ l) : findSub sep l = none := by
  cases h : findSub sep l with
  | none => rfl
  | some ab =>
    obtain ⟨a, b⟩ := ab
    have := findSub_eq h
    subst this
    exact absurd (by simp [hc] : c ∈ a ++ sep ++ b) hl

theorem findSub_append_self {sep j : List Char} (hsep : sep ≠ []) :
    findSub sep (sep ++ j) = some ([], j) := by
  cases sep with
  | nil => exact absurd rfl hsep
  | cons c rest =>
    show findSub (c :: rest) ((c :: rest) ++ j) = some ([], j)
    rw [List.cons_append]
    unfold findSub
    rw [if_pos]
    · rw [← List.cons_append, List.drop_left]
    · rw [List.isPrefixOf_iff_prefix, ← List.cons_append]
      exact List.prefix_append (c :: rest) j

/-- With no `'['` inside the heading and no trailing space, the junction
`" [SEP] "` is the first occurrence of the separator in the serialized
chunk. -/
theorem findSub_sep_junction :
    ∀ (h j : List Char), '[' ∉ h → (∀ c, h.getLast? = some c → c ≠ ' ') →
      findSub sepSEP (h ++ sepSEP ++ j) = some (h, j) := by
  intro h
  induction h with
  | nil =>
    intro j _ _
    rw [List.nil_append]
    exact findSub_append_self (by decide)
  | cons c h2 ih =>
    intro j hbr hlast
    rw [List.cons_append, List.cons_append]
    unfold findSub
    rw [if_neg]
    · have hl2 : ∀ d, h2.getLast? = some d → d ≠ ' ' := by
        intro d hd
        apply hlast d
        cases h2 with
        | nil => simp at hd
        | cons e h3 => rw [List.getLast?_cons_cons]; exact hd
      have hih := ih j (fun hm => hbr (by simp [hm])) hl2
      simp only [hih]
    · intro hpre
      rw [List.isPrefixOf_iff_prefix] at hpre
      have hsep : sepSEP = ' ' :: '[' :: ("SEP] ").toList := rfl
      rw [hsep] at hpre
      rw [List.cons_prefix_cons] at hpre
      obtain ⟨hc, hpre2⟩ := hpre
      cases h2 with
      | nil =>
        have hne : c ≠ ' ' := hlast c (by simp)
        exact hne hc.symm
      | cons d h3 =>
        rw [List.cons_append, List.cons_append, List.cons_prefix_cons] at hpre2
        exact hbr (by rw [hpre2.1]; simp)

theorem mem_joinSp {xs : List (List Char)} {c : Char} (h : c ∈ joinSp xs) :
    c = ' ' ∨ ∃ x ∈ xs, c ∈ x := by
  induction xs with
  | nil => simp [joinSp] at h
  | cons x ys ih =>
    cases ys with
    | nil =>
      right
      exact ⟨x, by simp, h⟩
    | cons y ws =>
      have hj : joinSp (x :: y :: ws) = x ++ ' ' :: joinSp (y :: ws) := rfl
      rw [hj, List.mem_append, List.mem_cons] at h
      rcases h with h | h | h
      · exact Or.inr ⟨x, by simp, h⟩
      · exact Or.inl h
      · rcases ih h with h2 | ⟨z, hz, hcz⟩
        · exact Or.inl h2
        · exact Or.inr ⟨z, by simp [hz], hcz⟩

/-- Characters of a TOC line belong to the TOC text. -/
theorem splitLinesRe_chars :
    ∀ (l : List Char) (line : List Char), line ∈ splitLinesRe l →
      ∀ c ∈ line, c ∈ l := by
  have main : ∀ (n : Nat) (l : List Char), l.length ≤ n →
      ∀ line ∈ splitLinesRe l, ∀ c ∈ line, c ∈ l := by
    intro n
    induction n with
    | zero =>
      intro l hl line hline c hc
      have : l = [] := List.eq_nil_of_length_eq_zero (Nat.le_zero.mp hl)
      subst this
      simp only [splitLinesRe, List.mem_singleton] at hline
      subst hline
      simp at hc
    | succ n ih =>
      intro l hl line hline c hc
      match l with
      | [] =>
        simp only [splitLinesRe, List.mem_singleton] at hline
        subst hline
        simp at hc
      | [c0] =>
        simp only [splitLinesRe] at hline
        split at hline
        · rcases (by simpa using hline : line = [] ∨ line = []) with rfl | rfl <;>
            simp at hc
        · simp only [List.mem_singleton] at hline
          subst hline
          simpa using hc
      | c0 :: c2 :: rest =>
        simp only [splitLinesRe] at hline
        split at hline
        · rw [List.mem_cons] at hline
          rcases hline with rfl | hline
          · simp at hc
          · have := ih (c2 :: rest) (by simp at hl ⊢; omega) line hline c hc
            simp [this]
        · split at hline
          · rw [List.mem_cons] at hline
            rcases hline with rfl | hline
            · simp at hc
            · have := ih rest (by simp at hl ⊢; omega) line hline c hc
              simp [this]
          · cases hsp : splitLinesRe (c2 :: rest) with
            | nil =>
              rw [hsp] at hline
              simp only [List.mem_singleton] at hline
              subst hline
              simp only [List.mem_singleton] at hc
              simp [hc]
            | cons line1 more =>
              rw [hsp] at hline
              rw [List.mem_cons] at hline
              rcases hline with rfl | hline
              · rw [List.mem_cons] at hc
                rcases hc with rfl | hc
                · simp
                · have := ih (c2 :: rest) (by simp at hl ⊢; omega) line1
                    (by rw [hsp]; simp) c hc
                  simp [this]
              · have := ih (c2 :: rest) (by simp at hl ⊢; omega) line
                  (by rw [hsp]; simp [hline]) c hc
                simp [this]
  intro l
  exact main l.length l (Nat.le_refl _)

/-- Characters of a body paragraph belong to the accumulator or the body
text. -/
theorem splitParasGo_chars :
    ∀ (l acc : List Char) (q : List Char), q ∈ splitParasGo acc l →
      ∀ c ∈ q, c ∈ acc ∨ c ∈ l := by
  have main : ∀ (n : Nat) (l acc : List Char), l.length ≤ n →
      ∀ q ∈ splitParasGo acc l, ∀ c ∈ q, c ∈ acc ∨ c ∈ l := by
    intro n
    induction n with
    | zero =>
      intro l acc hl q hq c hc
      have : l = [] := List.eq_nil_of_length_eq_zero (Nat.le_zero.mp hl)
      subst this
      simp only [splitParasGo, List.mem_singleton] at hq
      subst hq
      exact Or.inl (by simpa using hc)
    | succ n ih =>
      intro l acc hl q hq c hc
      match l with
      | [] =>
        simp only [splitParasGo, List.mem_singleton] at hq
        subst hq
        exact Or.inl (by simpa using hc)
      | [c0] =>
        simp only [splitParasGo, List.mem_singleton] at hq
        subst hq
        rcases (by simpa using hc : c ∈ acc ∨ c = c0) with hca | rfl
        · exact Or.inl hca
        · exact Or.inr (by simp)
      | c0 :: c2 :: rest =>
        simp only [splitParasGo] at hq
        split at hq
        · rw [List.mem_cons] at hq
          rcases hq with rfl | hq
          · exact Or.inl (by simpa using hc)
          · rcases ih rest [] (by simp at hl ⊢; omega) q hq c hc with h | h
            · simp at h
            · exact Or.inr (by simp [h])
        · rcases ih (c2 :: rest) (c0 :: acc) (by simp at hl ⊢; omega) q hq c hc with h | h
          · rcases (by simpa using h : c = c0 ∨ c ∈ acc) with rfl | hca
            · exact Or.inr (by simp)
            · exact Or.inl hca
          · exact Or.inr (by simp [h])
  intro l acc
  exact main l.length l acc (Nat.le_refl _)

theorem pyStripChars_sublist (set l : List Char) :
    List.Sublist (pyStripChars set l) l := by
  unfold pyStripChars dropEndWhile
  have h1 := List.reverse_sublist.mpr
    (List.dropWhile_sublist (p := fun c => set.contains c)
      (l := (l.dropWhile fun c => set.contains c).reverse))
  rw [List.reverse_reverse] at h1
  exact h1.trans (List.dropWhile_sublist _)

/-- Characters of a parsed heading belong to the TOC text. -/
theorem parseHeadings_chars {toc h : List Char} (hm : h ∈ parseHeadings toc) :
    ∀ c ∈ h, c ∈ toc := by
  intro c hc
  unfold parseHeadings at hm
  split at hm
  · simp at hm
  · simp only [List.mem_filterMap] at hm
    obtain ⟨line, hline, hcl⟩ := hm
    split at hcl
    · simp at hcl
    · simp only [Option.some.injEq] at hcl
      subst hcl
      have h1 : c ∈ pyStripChars tocStripSet line :=
        (pyStrip_sublist _).subset hc
      have h2 : c ∈ line := (pyStripChars_sublist _ _).subset h1
      exact splitLinesRe_chars toc line hline c h2

theorem noEdgeSpace_sep_concat {h j : List Char} (hh : h ≠ []) (hj : j ≠ [])
    (he : NoEdgeSpace h) (je : NoEdgeSpace j) :
    NoEdgeSpace (h ++ sepSEP ++ j) := by
  constructor
  · intro c hc
    cases h with
    | nil => exact absurd rfl hh
    | cons a t =>
      rw [List.cons_append, List.cons_append, List.head?_cons, Option.some.injEq] at hc
      subst hc
      exact he.1 a rfl
  · intro c hc
    rw [List.getLast?_append_of_ne_nil _ hj] at hc
    exact je.2 c hc

/-- Claim C5 (confirmed, spec-modelled): for every chunk produced by the
segmenter, the `section` extracted from the serialized chunk equals the
heading when the chunk has one, and the sentinel `"No Heading"` when it
has none.  The hypotheses exclude a `'['` in the raw texts, so that the
injected `" [SEP] "` separator cannot collide with document content. -/
theorem c5_section_metadata (toc text : String)
    (htoc : '[' ∉ toc.toList) (htext : '[' ∉ text.toList) :
    ∀ x ∈ segment toc text,
      (x.1 ≠ [] → sectionOf (serializeChunk x) = x.1) ∧
      (x.1 = [] → sectionOf (serializeChunk x) = ("No Heading").toList) := by
  intro x hx
  obtain ⟨hd, cont⟩ := x
  have hcont := segmentGo_content_mem
    (fun q => q ≠ [] ∧ NoEdgeSpace q ∧ '[' ∉ q)
    (paragraphsOf text.toList) (parseHeadings toc.toList) [] []
    (by simp)
    (fun p hp hne => ⟨hne, pyStrip_noEdgeSpace _, fun hbr => htext (by
      rcases splitParasGo_chars text.toList [] p hp '['
        ((pyStrip_sublist p).subset hbr) with h | h
      · simp at h
      · exact h)⟩)
    (hd, cont) hx
  obtain ⟨hcne, hcP⟩ := hcont
  have hjoinNE : NoEdgeSpace (joinSp cont) :=
    joinSp_noEdgeSpace (fun q hq => ⟨(hcP q hq).1, (hcP q hq).2.1⟩) hcne
  have hjoin_nb : '[' ∉ joinSp cont := by
    intro hbr
    rcases mem_joinSp hbr with h | ⟨z, hz, hcz⟩
    · exact absurd h (by decide)
    · exact (hcP z hz).2.2 hcz
  have hjoin_ne : joinSp cont ≠ [] := by
    cases cont with
    | nil => exact absurd rfl hcne
    | cons e es => exact joinSp_ne_nil (hcP e (by simp)).1
  constructor
  · intro hhd
    have hmem := segmentGo_head_mem (paragraphsOf text.toList)
      (parseHeadings toc.toList) [] [] (hd, cont) hx
    have hdm : hd ∈ parseHeadings toc.toList := by
      rcases hmem with h | h
      · exact absurd h hhd
      · exact h
    obtain ⟨hdne, hdEdge⟩ := parseHeadings_mem hdm
    have hdnb : '[' ∉ hd := fun hbr => htoc (parseHeadings_chars hdm '[' hbr)
    have hlastne : ∀ c, hd.getLast? = some c → c ≠ ' ' := by
      intro c hc heq
      subst heq
      exact absurd (hdEdge.2 ' ' hc) (by decide)
    have hser : serializeChunk (hd, cont) = pyStrip (hd ++ sepSEP ++ joinSp cont) := by
      simp [serializeChunk, hhd, mkChunkStr]
    have hps : pyStrip (hd ++ sepSEP ++ joinSp cont) = hd ++ sepSEP ++ joinSp cont :=
      pyStrip_eq_self (noEdgeSpace_sep_concat hdne hjoin_ne hdEdge hjoinNE)
    have hj := findSub_sep_junction hd (joinSp cont) hdnb hlastne
    show sectionOf (serializeChunk (hd, cont)) = hd
    rw [hser, hps]
    simp only [sectionOf, hj]
  · intro hhd
    have hhd2 : hd = [] := hhd
    have hser : serializeChunk (hd, cont) = pyStrip (joinSp cont) := by
      subst hhd2
      simp [serializeChunk]
    have hnb : '[' ∉ pyStrip (joinSp cont) :=
      fun hbr => hjoin_nb ((pyStrip_sublist _).subset hbr)
    have hnone := findSub_none_of_not_mem
      (by decide : '[' ∈ sepSEP) hnb
    show sectionOf (serializeChunk (hd, cont)) = ("No Heading").toList
    rw [hser]
    simp only [sectionOf, hnone]

/-- Closed instance of `c5_section_metadata`: on outline `"- Intro"` and
body `"Intro\n\nBody text here."` the single chunk has heading `"Intro"`
and its extracted section is `"Intro"`. -/
theorem c5_section_metadata_witness :
    sectionOf (serializeChunk (("Intro").toList, [("Body text here.").toList])) =
      ("Intro").toList :=
  (c5_section_metadata ("- Intro") ("Intro\n\nBody text here.")
    (by decide) (by decide)
    (("Intro").toList, [("Body text here.").toList]) (by decide)).1 (by decide)

/-- Claim C6 (confirmed, spec-modelled): the token-budget splitter always
returns at least one chunk, and every returned chunk is within the token
ceiling except chunks that no split strategy can reduce, which are
returned as-is; the default ceiling is 300. -/
theorem c6_split_token_budget_ceiling :
    maxChunkTokens = 300 ∧
    ∀ (T : Nat) (c : List Char),
      splitTokenBudget T c ≠ [] ∧
      ∀ p ∈ splitTokenBudget T c, countTokens p ≤ T ∨ ¬CanReduce T p := by
  refine ⟨rfl, ?_⟩
  intro T
  have main : ∀ (n : Nat) (c : List Char), countWords c ≤ n →
      splitTokenBudget T c ≠ [] ∧
      ∀ p ∈ splitTokenBudget T c, countTokens p ≤ T ∨ ¬CanReduce T p := by
    intro n
    induction n with
    | zero =>
      intro c hc
      rw [splitTokenBudget]
      split
      · exact ⟨by simp, by rename_i hle; intro p hp; rw [List.mem_singleton] at hp; subst hp; exact Or.inl hle⟩
      · split
        · rename_i hcr
          have := hcr.2
          exact absurd hcr (by
            rintro ⟨hlen, hlt⟩
            obtain ⟨p0, hp0⟩ : ∃ p0, p0 ∈ splitOnce T c := by
              cases hso : splitOnce T c with
              | nil => rw [hso] at hlen; simp at hlen
              | cons a rest => exact ⟨a, by simp⟩
            have := hlt p0 hp0
            omega)
        · rename_i hle hcr
          exact ⟨by simp, by intro p hp; rw [List.mem_singleton] at hp; subst hp; exact Or.inr hcr⟩
    | succ n ih =>
      intro c hc
      rw [splitTokenBudget]
      split
      · rename_i hle
        exact ⟨by simp, by intro p hp; rw [List.mem_singleton] at hp; subst hp; exact Or.inl hle⟩
      · split
        · rename_i hle hcr
          constructor
          · intro hnil
            obtain ⟨p0, rest0, hso⟩ : ∃ p0 rest0, splitOnce T c = p0 :: rest0 := by
              cases hso : splitOnce T c with
              | nil =>
                have h1 := hcr.1
                rw [hso] at h1
                simp at h1
              | cons a r => exact ⟨a, r, rfl⟩
            have hp0 : p0 ∈ splitOnce T c := by rw [hso]; simp
            have hne := (ih p0 (by have := hcr.2 p0 hp0; omega)).1
            rw [List.flatten_eq_nil_iff] at hnil
            exact hne (hnil (splitTokenBudget T p0)
              (by
                rw [List.mem_map]
                exact ⟨⟨p0, hp0⟩, List.mem_attach _ _, rfl⟩))
          · intro p hp
            rw [List.mem_flatten] at hp
            obtain ⟨sub, hsub, hpsub⟩ := hp
            rw [List.mem_map] at hsub
            obtain ⟨⟨q, hq⟩, _, rfl⟩ := hsub
            exact (ih q (by have := hcr.2 q hq; omega)).2 p hpsub
        · rename_i hle hcr
          exact ⟨by simp, by intro p hp; rw [List.mem_singleton] at hp; subst hp; exact Or.inr hcr⟩
  intro c
  exact main (countWords c) c (Nat.le_refl _)

theorem nl2spGo_eq_self :
    ∀ (l : List Char) (b : Bool), good3Go b l = true → nl2spGo b l = l := by
  intro l
  induction l with
  | nil => intro b _; rfl
  | cons c rest ih =>
    intro b h
    simp only [good3Go, Bool.and_eq_true] at h
    obtain ⟨h1, h2⟩ := h
    simp only [nl2spGo]
    by_cases hc : c = '\n'
    · subst hc
      rw [if_pos rfl] at h1 ⊢
      rw [if_pos h1, ih _ (by simpa using h2)]
    · rw [if_neg hc, ih _ (by simpa [hc] using h2)]

theorem collapseNLGo_eq_self :
    ∀ (l : List Char) (k : Nat), good4Go k l = true → collapseNLGo k l = l := by
  intro l
  induction l with
  | nil => intro k _; rfl
  | cons c rest ih =>
    intro k h
    simp only [good4Go] at h
    simp only [collapseNLGo]
    by_cases hc : c = '\n'
    · subst hc
      rw [if_pos rfl] at h ⊢
      simp only [Bool.and_eq_true, decide_eq_true_eq] at h
      rw [if_pos h.1, ih _ h.2]
      rfl
    · rw [if_neg hc] at h ⊢
      rw [ih _ h]

theorem collapseSpGo_eq_self :
    ∀ (l : List Char) (a : Bool) (k : Nat), good5Go a k l = true →
      collapseSpGo a k l = l := by
  intro l
  induction l with
  | nil => intro a k _; rfl
  | cons c rest ih =>
    intro a k h
    simp only [good5Go] at h
    simp only [collapseSpGo]
    by_cases hc : c = ' '
    · subst hc
      rw [if_pos rfl] at h ⊢
      simp only [Bool.and_eq_true] at h
      rw [if_pos h.1, ih _ _ h.2]
      rfl
    · rw [if_neg hc] at h ⊢
      rw [ih _ _ h]

theorem cr2lf_no_cr (l : List Char) : '\r' ∉ cr2lf l := by
  intro h
  unfold cr2lf at h
  rw [List.mem_map] at h
  obtain ⟨c, _, hc⟩ := h
  by_cases hcc : c = '\r'
  · rw [if_pos hcc] at hc
    exact absurd hc (by decide)
  · rw [if_neg hcc] at hc
    exact hcc hc

theorem nl2spGo_no_cr :
    ∀ (l : List Char) (b : Bool), '\r' ∉ l → '\r' ∉ nl2spGo b l := by
  intro l
  induction l with
  | nil => intro b _; simp [nl2spGo]
  | cons c rest ih =>
    intro b hl
    simp only [nl2spGo]
    by_cases hc : c = '\n'
    · subst hc
      rw [if_pos rfl]
      intro hmem
      rw [List.mem_cons] at hmem
      rcases hmem with hm | hm
      · split at hm <;> exact absurd hm.symm (by decide)
      · exact ih true (fun h2 => hl (by simp [h2])) hm
    · rw [if_neg hc]
      intro hmem
      rw [List.mem_cons] at hmem
      rcases hmem with hm | hm
      · exact hl (List.mem_cons.mpr (Or.inl hm))
      · exact ih false (fun h2 => hl (by simp [h2])) hm

theorem collapseNLGo_no_cr :
    ∀ (l : List Char) (k : Nat), '\r' ∉ l → '\r' ∉ collapseNLGo k l := by
  intro l
  induction l with
  | nil => intro k _; simp [collapseNLGo]
  | cons c rest ih =>
    intro k hl
    simp only [collapseNLGo]
    by_cases hc : c = '\n'
    · subst hc
      rw [if_pos rfl]
      intro hmem
      rw [List.mem_append] at hmem
      rcases hmem with hm | hm
      · split at hm <;> simp at hm
      · exact ih (k + 1) (fun h2 => hl (by simp [h2])) hm
    · rw [if_neg hc]
      intro hmem
      rw [List.mem_cons] at hmem
      rcases hmem with hm | hm
      · exact hl (List.mem_cons.mpr (Or.inl hm))
      · exact ih 0 (fun h2 => hl (by simp [h2])) hm

theorem collapseSpGo_no_cr :
    ∀ (l : List Char) (a : Bool) (k : Nat), '\r' ∉ l → '\r' ∉ collapseSpGo a k l := by
  intro l
  induction l with
  | nil => intro a k _; simp [collapseSpGo]
  | cons c rest ih =>
    intro a k hl
    simp only [collapseSpGo]
    by_cases hc : c = ' '
    · subst hc
      rw [if_pos rfl]
      intro hmem
      rw [List.mem_append] at hmem
      rcases hmem with hm | hm
      · split at hm <;> simp at hm
      · exact ih a (k + 1) (fun h2 => hl (by simp [h2])) hm
    · rw [if_neg hc]
      intro hmem
      rw [List.mem_cons] at hmem
      rcases hmem with hm | hm
      · exact hl (List.mem_cons.mpr (Or.inl hm))
      · exact ih _ 0 (fun h2 => hl (by simp [h2])) hm

theorem crlf2lf_eq_self :
    ∀ (l : List Char), '\r' ∉ l → crlf2lf l = l := by
  have main : ∀ (n : Nat) (l : List Char), l.length ≤ n → '\r' ∉ l →
      crlf2lf l = l := by
    intro n
    induction n with
    | zero =>
      intro l hl _
      have : l = [] := List.eq_nil_of_length_eq_zero (Nat.le_zero.mp hl)
      subst this
      rfl
    | succ n ih =>
      intro l hl hcr
      match l with
      | [] => rfl
      | [c] => rfl
      | c :: c2 :: rest =>
        simp only [crlf2lf]
        rw [if_neg, ih (c2 :: rest) (by simp at hl ⊢; omega)
          (fun h2 => hcr (by simp [h2]))]
        intro hb
        simp only [Bool.and_eq_true, decide_eq_true_eq] at hb
        exact hcr (by simp [hb.1])
  intro l
  exact main l.length l (Nat.le_refl _) 

theorem cr2lf_eq_self :
    ∀ (l : List Char), '\r' ∉ l → cr2lf l = l := by
  intro l hl
  unfold cr2lf
  induction l with
  | nil => rfl
  | cons c rest ih =>
    rw [List.map_cons, if_neg (fun h2 => hl (by simp [h2])),
      ih (fun h2 => hl (by simp [h2]))]

theorem containsSub_cons {pat : List Char} {c : Char} {rest : List Char} :
    containsSub pat (c :: rest) =
      (pat.isPrefixOf (c :: rest) || containsSub pat rest) := by
  unfold containsSub
  rw [findSub]
  by_cases hp : pat.isPrefixOf (c :: rest)
  · rw [if_pos hp]
    simp [hp]
  · rw [if_neg hp]
    have hpf : pat.isPrefixOf (c :: rest) = false := by
      rw [Bool.eq_false_iff]
      exact hp
    rw [hpf, Bool.false_or]
    cases hf : findSub pat rest with
    | none => simp [hf]
    | some ab =>
      obtain ⟨a, b⟩ := ab
      simp [hf]

theorem removeSubGo_eq_self :
    ∀ (l : List Char) (pat : List Char), containsSub pat l = false →
      removeSubGo pat 0 l = l := by
  intro l
  induction l with
  | nil => intro pat _; rfl
  | cons c rest ih =>
    intro pat h
    rw [containsSub_cons] at h
    simp only [Bool.or_eq_false_iff] at h
    show removeSubGo pat 0 (c :: rest) = c :: rest
    rw [removeSubGo, if_neg (by simp [h.1]), ih pat h.2]

theorem lookKeepNL_true_cases {rest : List Char} (h : lookKeepNL rest = true) :
    (∃ r2, rest = '\n' :: r2) ∨ (∃ r3, rest = '-' :: ' ' :: r3) := by
  match rest with
  | [] => simp [lookKeepNL] at h
  | [c] =>
    simp only [lookKeepNL, decide_eq_true_eq] at h
    exact Or.inl ⟨[], by rw [h]⟩
  | c :: c2 :: r =>
    simp only [lookKeepNL, Bool.or_eq_true, Bool.and_eq_true, decide_eq_true_eq] at h
    rcases h with h | ⟨h1, h2⟩
    · exact Or.inl ⟨c2 :: r, by rw [h]⟩
    · exact Or.inr ⟨r, by rw [h1, h2]⟩

theorem lookKeepNL_nl (X : List Char) : lookKeepNL ('\n' :: X) = true := by
  cases X <;> simp [lookKeepNL]

theorem lookKeepNL_dash (X : List Char) : lookKeepNL ('-' :: ' ' :: X) = true := by
  simp [lookKeepNL]

/-- The newline-unwrapping pass produces a string it would leave
unchanged (`pI`/`pO` are the previous-character flags of the input scan
and of the output check; they agree whenever the next character is a
newline). -/
theorem good3_nl2spGo :
    ∀ (l : List Char) (pI pO : Bool), (∀ r2, l = '\n' :: r2 → pI = pO) →
      good3Go pO (nl2spGo pI l) = true := by
  intro l
  induction l with
  | nil => intro pI pO _; rfl
  | cons c rest ih =>
    intro pI pO hcond
    by_cases hc : c = '\n'
    · subst hc
      simp only [nl2spGo, if_pos rfl, if_true]
      by_cases hk : (pI || lookKeepNL rest) = true
      · rw [if_pos hk]
        have hgood : good3Go pO ('\n' :: nl2spGo true rest) =
            ((pO || lookKeepNL (nl2spGo true rest)) && good3Go true (nl2spGo true rest)) := by
          simp [good3Go]
        rw [hgood, Bool.and_eq_true]
        refine ⟨?_, ih true true (fun _ _ => rfl)⟩
        rw [Bool.or_eq_true] at hk
        rcases hk with hk | hk
        · have hpp : pI = pO := hcond rest rfl
          rw [← hpp, hk]
          simp
        · rcases lookKeepNL_true_cases hk with ⟨r2, rfl⟩ | ⟨r3, rfl⟩
          · have hout : nl2spGo true ('\n' :: r2) = '\n' :: nl2spGo true r2 := by
              simp [nl2spGo]
            rw [hout, lookKeepNL_nl]
            simp
          · have hout : nl2spGo true ('-' :: ' ' :: r3) =
                '-' :: ' ' :: nl2spGo false r3 := by
              simp [nl2spGo]
            rw [hout, lookKeepNL_dash]
            simp
      · rw [if_neg hk]
        have hgood : good3Go pO (' ' :: nl2spGo true rest) =
            good3Go false (nl2spGo true rest) := by
          simp [good3Go]
        rw [hgood]
        apply ih true false
        intro r2 hrest
        subst hrest
        rw [lookKeepNL_nl] at hk
        simp at hk
    · simp only [nl2spGo, if_neg hc]
      have hgood : ∀ X, good3Go pO (c :: X) = good3Go false X := by
        intro X
        simp [good3Go, if_neg hc, hc]
      rw [hgood]
      exact ih false false (fun _ _ => rfl)

/-- Unfolding equation for `good3Go` at a newline. -/
theorem good3Go_cons_nl (b : Bool) (rest : List Char) :
    good3Go b ('\n' :: rest) = ((b || lookKeepNL rest) && good3Go true rest) := by
  simp [good3Go]

/-- Unfolding equation for `good3Go` at a non-newline. -/
theorem good3Go_cons_other {c : Char} (hc : c ≠ '\n') (b : Bool) (rest : List Char) :
    good3Go b (c :: rest) = good3Go false rest := by
  simp [good3Go, if_neg hc, hc]

/-- Newline-run collapsing preserves the `nl2sp` fixpoint property. -/
theorem good3_collapseNLGo :
    ∀ (l : List Char) (k : Nat) (b : Bool), (b = true ↔ k ≠ 0) →
      good3Go b l = true → good3Go b (collapseNLGo k l) = true := by
  intro l
  induction l with
  | nil => intro k b _ _; rfl
  | cons c rest ih =>
    intro k b hiff h
    by_cases hc : c = '\n'
    · subst hc
      rw [good3Go_cons_nl, Bool.and_eq_true] at h
      obtain ⟨h1, h2⟩ := h
      simp only [collapseNLGo, if_pos rfl, if_true]
      by_cases hk2 : k < 2
      · rw [if_pos hk2]
        have hshape : ['\n'] ++ collapseNLGo (k + 1) rest =
            '\n' :: collapseNLGo (k + 1) rest := rfl
        rw [hshape, good3Go_cons_nl, Bool.and_eq_true]
        refine ⟨?_, ih (k + 1) true (by simp) h2⟩
        rw [Bool.or_eq_true] at h1
        rcases h1 with h1 | h1
        · rw [h1]
          simp
        · by_cases hb : b = true
          · rw [hb]
            simp
          · have hk0 : k = 0 := by
              by_contra hk0
              exact hb (hiff.mpr hk0)
            subst hk0
            rcases lookKeepNL_true_cases h1 with ⟨r2, rfl⟩ | ⟨r3, rfl⟩
            · have hout : collapseNLGo 1 ('\n' :: r2) =
                  '\n' :: collapseNLGo 2 r2 := by
                simp [collapseNLGo]
              rw [hout, lookKeepNL_nl]
              simp
            · have hout : collapseNLGo 1 ('-' :: ' ' :: r3) =
                  '-' :: ' ' :: collapseNLGo 0 r3 := by
                simp [collapseNLGo]
              rw [hout, lookKeepNL_dash]
              simp
      · rw [if_neg hk2, List.nil_append]
        have hb : b = true := hiff.mpr (by omega)
        subst hb
        exact ih (k + 1) true (by simp) h2
    · rw [good3Go_cons_other hc] at h
      simp only [collapseNLGo, if_neg hc]
      rw [good3Go_cons_other hc]
      exact ih 0 false (by simp) h

/-- Space-run collapsing preserves the `nl2sp` fixpoint property. -/
theorem good3_collapseSpGo :
    ∀ (l : List Char) (a : Bool) (k : Nat) (b : Bool),
      good3Go b l = true → (k ≠ 0 → b = false) →
      good3Go b (collapseSpGo a k l) = true := by
  intro l
  induction l with
  | nil => intro a k b _ _; rfl
  | cons c rest ih =>
    intro a k b h hkb
    by_cases hc : c = ' '
    · subst hc
      rw [good3Go_cons_other (by decide)] at h
      simp only [collapseSpGo, if_pos rfl, if_true]
      by_cases he : ((' ' :: rest ≠ []) ∧ True) ∨ True
      case pos =>
        clear he
        by_cases he2 : ((k = 0) || (a && (k = 1))) = true
        · rw [if_pos he2]
          have hshape : [' '] ++ collapseSpGo a (k + 1) rest =
              ' ' :: collapseSpGo a (k + 1) rest := rfl
          rw [hshape, good3Go_cons_other (by decide)]
          exact ih a (k + 1) false h (fun _ => rfl)
        · rw [if_neg he2, List.nil_append]
          have hk0 : k ≠ 0 := by
            intro hk
            subst hk
            simp at he2
          have hb : b = false := hkb hk0
          subst hb
          exact ih a (k + 1) false h (fun _ => rfl)
      case neg => exact absurd (Or.inr trivial) he
    · simp only [collapseSpGo, if_neg hc]
      by_cases hc2 : c = '\n'
      · subst hc2
        rw [good3Go_cons_nl, Bool.and_eq_true] at h
        obtain ⟨h1, h2⟩ := h
        have hdt : (decide ('\n' = '\n')) = true := by decide
        rw [hdt]
        rw [good3Go_cons_nl, Bool.and_eq_true]
        refine ⟨?_, ih true 0 true h2 (by simp)⟩
        rw [Bool.or_eq_true] at h1
        rcases h1 with h1 | h1
        · rw [h1]
          simp
        · rcases lookKeepNL_true_cases h1 with ⟨r2, rfl⟩ | ⟨r3, rfl⟩
          · have hout : collapseSpGo true 0 ('\n' :: r2) =
                '\n' :: collapseSpGo true 0 r2 := by
              simp [collapseSpGo]
            rw [hout, lookKeepNL_nl]
            simp
          · have hout : collapseSpGo true 0 ('-' :: ' ' :: r3) =
                '-' :: ' ' :: collapseSpGo false 1 r3 := by
              rw [collapseSpGo, if_neg (by decide : ¬('-' = ' ')),
                show (decide ('-' = '\n')) = false from by decide,
                collapseSpGo, if_pos (by decide : (' ' = ' ')), if_pos (by decide)]
              rfl
            rw [hout, lookKeepNL_dash]
            simp
      · rw [good3Go_cons_other hc2] at h
        have hdf : (decide (c = '\n')) = false := by simpa using hc2
        rw [hdf]
        rw [good3Go_cons_other hc2]
        exact ih false 0 false h (by simp)

/-- Unfolding equation for `good4Go` at a newline. -/
theorem good4Go_cons_nl (k : Nat) (rest : List Char) :
    good4Go k ('\n' :: rest) = (decide (k < 2) && good4Go (k + 1) rest) := by
  simp [good4Go]

/-- Unfolding equation for `good4Go` at a non-newline. -/
theorem good4Go_cons_other {c : Char} (hc : c ≠ '\n') (k : Nat) (rest : List Char) :
    good4Go k (c :: rest) = good4Go 0 rest := by
  simp [good4Go, if_neg hc]

/-- Newline-run collapsing produces a string it would leave unchanged. -/
theorem good4_collapseNLGo :
    ∀ (l : List Char) (k : Nat), good4Go (min k 2) (collapseNLGo k l) = true := by
  intro l
  induction l with
  | nil => intro k; rfl
  | cons c rest ih =>
    intro k
    by_cases hc : c = '\n'
    · subst hc
      simp only [collapseNLGo, if_pos rfl, if_true]
      by_cases hk2 : k < 2
      · rw [if_pos hk2]
        have hshape : ['\n'] ++ collapseNLGo (k + 1) rest =
            '\n' :: collapseNLGo (k + 1) rest := rfl
        rw [hshape, good4Go_cons_nl]
        have h1 : (decide (min k 2 < 2)) = true := by
          simp only [decide_eq_true_eq]
          omega
        rw [h1, Bool.true_and]
        have h2 : min k 2 + 1 = min (k + 1) 2 := by omega
        rw [h2]
        exact ih (k + 1)
      · rw [if_neg hk2, List.nil_append]
        have h2 : min k 2 = min (k + 1) 2 := by omega
        rw [h2]
        exact ih (k + 1)
    · simp only [collapseNLGo, if_neg hc]
      rw [good4Go_cons_other hc]
      have h0 : (0 : Nat) = min 0 2 := rfl
      rw [h0]
      exact ih 0

/-- Space-run collapsing preserves the newline-run bound. -/
theorem good4_collapseSpGo :
    ∀ (l : List Char) (a : Bool) (k m : Nat), good4Go m l = true →
      (k ≠ 0 → m = 0) → good4Go m (collapseSpGo a k l) = true := by
  intro l
  induction l with
  | nil => intro a k m _ _; rfl
  | cons c rest ih =>
    intro a k m h hkm
    by_cases hc : c = ' '
    · subst hc
      rw [good4Go_cons_other (by decide)] at h
      simp only [collapseSpGo, if_pos rfl, if_true]
      by_cases he : ((k = 0) || (a && (k = 1))) = true
      · rw [if_pos he]
        have hshape : [' '] ++ collapseSpGo a (k + 1) rest =
            ' ' :: collapseSpGo a (k + 1) rest := rfl
        rw [hshape, good4Go_cons_other (by decide)]
        exact ih a (k + 1) 0 h (fun _ => rfl)
      · rw [if_neg he, List.nil_append]
        have hk0 : k ≠ 0 := by
          intro hk
          subst hk
          simp at he
        rw [hkm hk0]
        exact ih a (k + 1) 0 h (fun _ => rfl)
    · simp only [collapseSpGo, if_neg hc]
      by_cases hc2 : c = '\n'
      · subst hc2
        rw [good4Go_cons_nl, Bool.and_eq_true] at h
        obtain ⟨h1, h2⟩ := h
        have hdt : (decide ('\n' = '\n')) = true := by decide
        rw [hdt, good4Go_cons_nl, h1, Bool.true_and]
        exact ih true 0 (m + 1) h2 (by simp)
      · rw [good4Go_cons_other hc2] at h
        have hdf : (decide (c = '\n')) = false := by simpa using hc2
        rw [hdf, good4Go_cons_other hc2]
        exact ih false 0 0 h (by simp)

/-- Unfolding equation for `good5Go` at a space. -/
theorem good5Go_cons_sp (a : Bool) (k : Nat) (rest : List Char) :
    good5Go a k (' ' :: rest) =
      ((decide (k = 0) || (a && decide (k = 1))) && good5Go a (k + 1) rest) := by
  simp [good5Go]

/-- Unfolding equation for `good5Go` at a non-space. -/
theorem good5Go_cons_other {c : Char} (hc : c ≠ ' ') (a : Bool) (k : Nat)
    (rest : List Char) :
    good5Go a k (c :: rest) = good5Go (c = '\n') 0 rest := by
  simp [good5Go, if_neg hc]

/-- Space-run collapsing produces a string it would leave unchanged. -/
theorem good5_collapseSpGo :
    ∀ (l : List Char) (a : Bool) (k : Nat),
      good5Go a (emitCnt a k) (collapseSpGo a k l) = true := by
  intro l
  induction l with
  | nil => intro a k; rfl
  | cons c rest ih =>
    intro a k
    by_cases hc : c = ' '
    · subst hc
      simp only [collapseSpGo, if_pos rfl, if_true]
      by_cases he : ((k = 0) || (a && (k = 1))) = true
      · rw [if_pos he]
        have hshape : [' '] ++ collapseSpGo a (k + 1) rest =
            ' ' :: collapseSpGo a (k + 1) rest := rfl
        rw [hshape, good5Go_cons_sp, Bool.and_eq_true]
        rw [Bool.or_eq_true, Bool.and_eq_true] at he
        constructor
        · rcases he with he | ⟨ha, he⟩
          · have hk0 : k = 0 := by simpa using he
            subst hk0
            simp [emitCnt]
          · have hk1 : k = 1 := by simpa using he
            subst hk1
            rw [ha]
            simp [emitCnt]
        · have hcnt : emitCnt a k + 1 = emitCnt a (k + 1) := by
            rcases he with he | ⟨ha, he⟩
            · have hk0 : k = 0 := by simpa using he
              subst hk0
              by_cases hb : a = true <;> simp [emitCnt, hb]
            · have hk1 : k = 1 := by simpa using he
              subst hk1
              rw [ha]
              simp [emitCnt]
          rw [hcnt]
          exact ih a (k + 1)
      · rw [if_neg he, List.nil_append]
        have hcnt : emitCnt a k = emitCnt a (k + 1) := by
          rw [Bool.or_eq_true, Bool.and_eq_true] at he
          push_neg at he
          by_cases hb : a = true
          · have hk : k ≠ 1 := by
              intro hk
              exact absurd (by simp [hk]) (he.2 hb)
            have hk0 : k ≠ 0 := by
              intro hk
              exact absurd (by simp [hk]) he.1
            simp only [emitCnt, hb, if_true]
            omega
          · have hk0 : k ≠ 0 := by
              intro hk
              exact absurd (by simp [hk]) he.1
            have hbf : a = false := by
              cases a
              · rfl
              · exact absurd rfl hb
            simp only [emitCnt, hbf, Bool.false_eq_true, if_false]
            omega
        rw [hcnt]
        exact ih a (k + 1)
    · simp only [collapseSpGo, if_neg hc]
      rw [good5Go_cons_other hc]
      have h0 : good5Go (c = '\n') 0 (collapseSpGo (c = '\n') 0 rest) = true := by
        have := ih (c = '\n') 0
        simpa [emitCnt] using this
      exact h0

/-- Claim C2, counterexample: `cleanup_plaintext` is not idempotent — the
artifact-removal phase can manufacture a new artifact: on `"[[]image]"`
removing `"[]"` yields `"[image]"`, which a second pass removes entirely. -/
theorem c2_cleanup_plaintext_counterexample :
    cleanup_plaintext ("[[]image]") = "[image]" ∧
    cleanup_plaintext (cleanup_plaintext ("[[]image]")) = "" ∧
    cleanup_plaintext (cleanup_plaintext ("[[]image]")) ≠
      cleanup_plaintext ("[[]image]") := by
  refine ⟨rfl, rfl, by decide⟩

/-- Claim C2 (amended): `cleanup_plaintext` is idempotent on every input
whose normalized output contains neither `"[image]"` nor `"[]"` as a
substring (the whitespace passes are always idempotent; only the
artifact-removal phase can disturb a second pass, as in
`c2_cleanup_plaintext_counterexample`). -/
theorem c2_cleanup_plaintext_idempotent_amended (s : String)
    (h1 : containsSub (("[image]").toList) (cleanup_plaintext s).toList = false)
    (h2 : containsSub (("[]").toList) (cleanup_plaintext s).toList = false) :
    cleanup_plaintext (cleanup_plaintext s) = cleanup_plaintext s := by
  have h1t : containsSub (("[image]").toList) (cleanupL s.toList) = false := h1
  have h2t : containsSub (("[]").toList) (cleanupL s.toList) = false := h2
  suffices hfix : cleanupL (cleanupL s.toList) = cleanupL s.toList by
    show String.mk (cleanupL (String.mk (cleanupL s.toList)).toList) =
      String.mk (cleanupL s.toList)
    rw [show (String.mk (cleanupL s.toList)).toList = cleanupL s.toList from rfl,
      hfix]
  have hu : cleanupL s.toList =
      collapseSpGo false 0 (collapseNLGo 0 (nl2spGo false
        (cr2lf (crlf2lf (removeBrackets (removeImage s.toList)))))) := rfl
  have hnr : '\r' ∉ cleanupL s.toList := by
    rw [hu]
    exact collapseSpGo_no_cr _ false 0 (collapseNLGo_no_cr _ 0
      (nl2spGo_no_cr _ false (cr2lf_no_cr _)))
  have hg3 : good3Go false (cleanupL s.toList) = true := by
    rw [hu]
    exact good3_collapseSpGo _ false 0 false
      (good3_collapseNLGo _ 0 false (by simp)
        (good3_nl2spGo _ false false (fun _ _ => rfl)))
      (by simp)
  have hg4 : good4Go 0 (cleanupL s.toList) = true := by
    rw [hu]
    exact good4_collapseSpGo _ false 0 0
      (by simpa using good4_collapseNLGo (nl2spGo false
        (cr2lf (crlf2lf (removeBrackets (removeImage s.toList))))) 0)
      (by simp)
  have hg5 : good5Go false 0 (cleanupL s.toList) = true := by
    rw [hu]
    have := good5_collapseSpGo (collapseNLGo 0 (nl2spGo false
      (cr2lf (crlf2lf (removeBrackets (removeImage s.toList)))))) false 0
    simpa [emitCnt] using this
  set t := cleanupL s.toList with ht
  have hri : removeImage t = t := removeSubGo_eq_self t _ h1t
  have hrb : removeBrackets t = t := removeSubGo_eq_self t _ h2t
  have hcrlf : crlf2lf t = t := crlf2lf_eq_self t hnr
  have hcr2 : cr2lf t = t := cr2lf_eq_self t hnr
  have hnl : nl2spGo false t = t := nl2spGo_eq_self t false hg3
  have hcnl : collapseNLGo 0 t = t := collapseNLGo_eq_self t 0 hg4
  have hcsp : collapseSpGo false 0 t = t := collapseSpGo_eq_self t false 0 hg5
  show collapseSpGo false 0 (collapseNLGo 0 (nl2spGo false
    (cr2lf (crlf2lf (removeBrackets (removeImage t)))))) = t
  rw [hri, hrb, hcrlf, hcr2, hnl, hcnl, hcsp]

/-- Closed instance of `c2_cleanup_plaintext_idempotent_amended` on a
concrete artifact-free input, discharging both hypotheses. -/
theorem c2_cleanup_plaintext_idempotent_witness :
    cleanup_plaintext (cleanup_plaintext ("Some wrapped\ntext  here.")) =
      cleanup_plaintext ("Some wrapped\ntext  here.") :=
  c2_cleanup_plaintext_idempotent_amended ("Some wrapped\ntext  here.")
    (by decide) (by decide)

end Vino
